import Mathlib

/-!
Verification of the mdv content-model core (crates/mdv-core) against its
natural-language specification.

The Rust sources are embedded shallowly:

* Text is modelled as `List Char`; byte offsets are modelled with
  `Char.utf8Size` (identical to Rust `char::len_utf8`), so a cursor is a
  `Nat` byte offset exactly as in the source.
* `conflict_diff.rs` is embedded generically over a line type `α`
  (instantiated at `List Char` lines).  The `while` loops of
  `compute_conflict_hunks` and the DP backtrack of `diff_ops` are embedded
  as recursive functions; the DP table of the source computes exactly the
  LCS lengths of suffix pairs, which is the recursive `lcsLen` below.
* `editor.rs` (`EditorBuffer`) is embedded as a structure with explicit
  state passing; `Vec` undo/redo stacks are modelled most-recent-first
  (Rust pushes/pops at the end and evicts from the front; the model conses
  and pops at the head and evicts with `take`).
* `markdown.rs` drives the external `pulldown_cmark` parser; the renderer
  is embedded as a fold over the parser's event stream, which is the exact
  code of `render_preview_lines`'s `for` loop.  Parsing itself belongs to
  the external crate and is not part of this repository.
-/

namespace Mdv

/-! ## Diff engine: `crates/mdv-core/src/conflict_diff.rs` -/

/-- Edit-script operation, from `enum Op` in `conflict_diff.rs`. -/
inductive Op
  | Equal
  | Delete
  | Insert
deriving DecidableEq, Repr

/-- `struct ConflictHunk` from `conflict_diff.rs`, generic over the line type. -/
structure ConflictHunk (α : Type) where
  local_start : Nat
  external_start : Nat
  local_lines : List α
  external_lines : List α
deriving DecidableEq, Repr

/-- Length of the longest common subsequence of two lists.  The DP table
`lcs` built by `diff_ops` satisfies `lcs[i][j] = lcsLen (local.drop i)
(external.drop j)`: the source recurrence is exactly the one below. -/
def lcsLen {α : Type} [DecidableEq α] : List α → List α → Nat
  | [], _ => 0
  | _ :: _, [] => 0
  | x :: xs, y :: ys =>
    if x = y then lcsLen xs ys + 1
    else max (lcsLen xs (y :: ys)) (lcsLen (x :: xs) ys)
termination_by xs ys => xs.length + ys.length

/-- The backtrack loop of `diff_ops`: prefer `Equal` on matching heads,
otherwise follow the branch with the larger LCS lookahead, tie-breaking
toward `Delete` (`lcs[i + 1][j] >= lcs[i][j + 1]`).  The two trailing
`while` loops of the source are the first two equations. -/
def diffOps {α : Type} [DecidableEq α] : List α → List α → List Op
  | [], ys => ys.map fun _ => Op.Insert
  | x :: xs, [] => (x :: xs).map fun _ => Op.Delete
  | x :: xs, y :: ys =>
    if x = y then Op.Equal :: diffOps xs ys
    else if lcsLen (x :: xs) ys ≤ lcsLen xs (y :: ys) then Op.Delete :: diffOps xs (y :: ys)
    else Op.Insert :: diffOps (x :: xs) ys
termination_by xs ys => xs.length + ys.length

/-- Split an op list into its maximal leading `Delete`/`Insert` run and the
rest — the extent of the inner `while` loop of `compute_conflict_hunks`. -/
def runSplit : List Op → List Op × List Op
  | [] => ([], [])
  | Op.Equal :: rest => ([], Op.Equal :: rest)
  | Op.Delete :: rest => (Op.Delete :: (runSplit rest).1, (runSplit rest).2)
  | Op.Insert :: rest => (Op.Insert :: (runSplit rest).1, (runSplit rest).2)

/-- Number of `Delete` ops (how far `local_idx` advances over a run). -/
def numDel : List Op → Nat
  | [] => 0
  | Op.Delete :: rest => numDel rest + 1
  | _ :: rest => numDel rest

/-- Number of `Insert` ops (how far `external_idx` advances over a run). -/
def numIns : List Op → Nat
  | [] => 0
  | Op.Insert :: rest => numIns rest + 1
  | _ :: rest => numIns rest

/-- The `local_chunk` collected by the inner loop: one `local_lines[local_idx]`
per `Delete`, with `local_idx` advancing. -/
def runLocals {α : Type} [Inhabited α] : List Op → List α → Nat → List α
  | [], _, _ => []
  | Op.Delete :: rest, ls, li => ls.getD li default :: runLocals rest ls (li + 1)
  | _ :: rest, ls, li => runLocals rest ls li

/-- The `external_chunk` collected by the inner loop: one
`external_lines[external_idx]` per `Insert`. -/
def runExts {α : Type} [Inhabited α] : List Op → List α → Nat → List α
  | [], _, _ => []
  | Op.Insert :: rest, es, ei => es.getD ei default :: runExts rest es (ei + 1)
  | _ :: rest, es, ei => runExts rest es ei

/-- The outer `while` loop of `compute_conflict_hunks`: skip `Equal` ops,
and collapse each maximal `Delete`/`Insert` run into one hunk recording the
indices at which the run started. -/
def hunksGo {α : Type} [Inhabited α] : List Op → List α → List α → Nat → Nat →
    List (ConflictHunk α)
  | [], _, _, _, _ => []
  | Op.Equal :: rest, ls, es, li, ei => hunksGo rest ls es (li + 1) (ei + 1)
  | Op.Delete :: rest, ls, es, li, ei =>
    { local_start := li, external_start := ei,
      local_lines := runLocals (runSplit (Op.Delete :: rest)).1 ls li,
      external_lines := runExts (runSplit (Op.Delete :: rest)).1 es ei } ::
      hunksGo (runSplit (Op.Delete :: rest)).2 ls es
        (li + numDel (runSplit (Op.Delete :: rest)).1)
        (ei + numIns (runSplit (Op.Delete :: rest)).1)
  | Op.Insert :: rest, ls, es, li, ei =>
    { local_start := li, external_start := ei,
      local_lines := runLocals (runSplit (Op.Insert :: rest)).1 ls li,
      external_lines := runExts (runSplit (Op.Insert :: rest)).1 es ei } ::
      hunksGo (runSplit (Op.Insert :: rest)).2 ls es
        (li + numDel (runSplit (Op.Insert :: rest)).1)
        (ei + numIns (runSplit (Op.Insert :: rest)).1)
termination_by ops _ _ _ _ => ops.length
decreasing_by
  · simp [runSplit]
  · simp only [runSplit]
    refine Nat.lt_succ_of_le ?_
    induction rest with
    | nil => simp [runSplit]
    | cons op rest ih => cases op <;> simp [runSplit] <;> omega
  · simp only [runSplit]
    refine Nat.lt_succ_of_le ?_
    induction rest with
    | nil => simp [runSplit]
    | cons op rest ih => cases op <;> simp [runSplit] <;> omega

/-- `compute_conflict_hunks` on already-split line sequences. -/
def computeHunksLines {α : Type} [DecidableEq α] [Inhabited α] (ls es : List α) :
    List (ConflictHunk α) :=
  hunksGo (diffOps ls es) ls es 0 0

/-- A document: Rust `String` modelled as a list of Unicode scalar values. -/
abbrev Text := List Char

/-- Rust `text.split('\n')`: always at least one (possibly empty) piece. -/
def splitLines : Text → List Text
  | [] => [[]]
  | c :: cs =>
    if c = '\n' then [] :: splitLines cs
    else
      match splitLines cs with
      | [] => [[c]]
      | l :: rest => (c :: l) :: rest

/-- Rust `lines.join("\n")`. -/
def joinLines : List Text → Text
  | [] => []
  | [l] => l
  | l :: ls => l ++ '\n' :: joinLines ls

/-- `compute_conflict_hunks(local, external)` from `conflict_diff.rs`. -/
def compute_conflict_hunks (lo ex : Text) : List (ConflictHunk Text) :=
  computeHunksLines (splitLines lo) (splitLines ex)

/-- Splicing a hunk list into a line sequence, hunk by hunk in order: each
hunk's local line span (given in coordinates of the original sequence; `idx`
is the coordinate of the head of `lines`) is replaced by its
`external_lines`.  This is the claimed reading of the spec sentence
"substituting diff hunks' external lines for local lines, in order". -/
def spliceHunksFrom {α : Type} : Nat → List α → List (ConflictHunk α) → List α
  | _, lines, [] => lines
  | idx, lines, h :: hs =>
    lines.take (h.local_start - idx) ++ h.external_lines ++
      spliceHunksFrom (h.local_start + h.local_lines.length)
        (lines.drop (h.local_start - idx + h.local_lines.length)) hs

/-! ## Text buffer: `crates/mdv-core/src/editor.rs`

Byte offsets are modelled over `List Char` via `Char.utf8Size`, which is
Rust's `char::len_utf8`.  Rust `str::find`/`rfind`/`matches`/`replace`
match byte sequences, but because UTF-8 is self-synchronizing every match
of a valid needle in valid text starts on a character boundary, so they
are modelled character-wise. -/

/-- Total UTF-8 byte length, Rust `str::len`. -/
def byteLen (t : Text) : Nat := (t.map Char.utf8Size).sum

/-- Rust `str::is_char_boundary`: the offset is the byte length of some
prefix of the character sequence (0 and `len` included). -/
def is_char_boundary (t : Text) (i : Nat) : Bool :=
  (List.range (t.length + 1)).any fun k => byteLen (t.take k) == i

/-- The loop of `prev_char_boundary`: walk `idx` down from the start value
while it is positive and not a boundary. -/
def prevBoundaryAux (t : Text) : Nat → Nat
  | 0 => 0
  | i + 1 => if is_char_boundary t (i + 1) then i + 1 else prevBoundaryAux t i

/-- `EditorBuffer::prev_char_boundary`. -/
def prev_char_boundary (t : Text) (i : Nat) : Nat := prevBoundaryAux t (i - 1)

/-- The loop of `next_char_boundary`: walk `idx` up while below `len` and
not a boundary. -/
def nextBoundaryAux (t : Text) (idx : Nat) : Nat :=
  if idx < byteLen t then
    (if is_char_boundary t idx then idx else nextBoundaryAux t (idx + 1))
  else idx
termination_by byteLen t - idx

/-- `EditorBuffer::next_char_boundary`. -/
def next_char_boundary (t : Text) (i : Nat) : Nat :=
  nextBoundaryAux t (min (i + 1) (byteLen t))

/-- The characters whose bytes lie below byte offset `p` — Rust
`&text[..p]` for `p` on a boundary. -/
def takeBytes : Text → Nat → Text
  | [], _ => []
  | c :: cs, p => if c.utf8Size ≤ p then c :: takeBytes cs (p - c.utf8Size) else []

/-- The characters from byte offset `p` on — Rust `&text[p..]` for `p` on
a boundary. -/
def dropBytes : Text → Nat → Text
  | [], _ => []
  | c :: cs, p =>
    if p = 0 then c :: cs
    else if c.utf8Size ≤ p then dropBytes cs (p - c.utf8Size) else cs

/-- The loop of `EditorBuffer::line_col_at`: scan `char_indices`, stopping
at the clamped byte index; `pos` is the byte index of the head of the
remaining characters. -/
def lineColAux : Text → Nat → Nat → Nat → Nat → Nat × Nat
  | [], _, _, line, col => (line, col)
  | c :: cs, clamped, pos, line, col =>
    if clamped ≤ pos then (line, col)
    else if c = '\n' then lineColAux cs clamped (pos + c.utf8Size) (line + 1) 0
    else lineColAux cs clamped (pos + c.utf8Size) line (col + 1)

/-- `EditorBuffer::line_col_at`. -/
def line_col_at (t : Text) (i : Nat) : Nat × Nat :=
  lineColAux t (min i (byteLen t)) 0 0 0

/-- The loop of `EditorBuffer::index_at_line_col`; falls through to the
total byte length when the target is never reached. -/
def idxAtAux : Text → Nat → Nat → Nat → Nat → Nat → Nat → Nat
  | [], _, _, _, _, _, total => total
  | c :: cs, tl, tc, pos, line, col, total =>
    if line = tl ∧ col = tc then pos
    else if c = '\n' then
      (if line = tl then pos else idxAtAux cs tl tc (pos + c.utf8Size) (line + 1) 0 total)
    else idxAtAux cs tl tc (pos + c.utf8Size) line (col + 1) total

/-- `EditorBuffer::index_at_line_col`. -/
def index_at_line_col (t : Text) (tl tc : Nat) : Nat :=
  idxAtAux t tl tc 0 0 0 (byteLen t)

/-- Rust `text.lines().count()`: number of newline-terminated lines plus a
final unterminated one. -/
def linesCount (t : Text) : Nat :=
  t.count '\n' + (if t ≠ [] ∧ t.getLast? ≠ some '\n' then 1 else 0)

/-- Rust `str::find` on the character level: index of the first occurrence
of `n`. -/
def charFind : Text → Text → Option Nat
  | [], n => if n.isPrefixOf ([] : Text) then some 0 else none
  | c :: t', n =>
    if n.isPrefixOf (c :: t') then some 0 else (charFind t' n).map (· + 1)

/-- Rust `str::rfind` on the character level: index of the last occurrence
of `n`. -/
def charRFind : Text → Text → Option Nat
  | [], n => if n.isPrefixOf ([] : Text) then some 0 else none
  | c :: t', n =>
    match charRFind t' n with
    | some k => some (k + 1)
    | none => if n.isPrefixOf (c :: t') then some 0 else none

/-- Rust `str::contains`. -/
def containsSub (t n : Text) : Bool := (charFind t n).isSome

/-- Rust `text.matches(n).count()` for a non-empty needle: the number of
occurrences found by the left-to-right non-overlapping scan. -/
def countOccs : Text → Text → Nat
  | [], _ => 0
  | c :: t', n =>
    if h : n ≠ [] ∧ n.isPrefixOf (c :: t') then countOccs ((c :: t').drop n.length) n + 1
    else countOccs t' n
termination_by t _ => t.length
decreasing_by
  · simp only [List.length_drop, List.length_cons]
    have : 1 ≤ n.length := List.length_pos.mpr h.1
    omega
  · simp

/-- Rust `text.replace(n, r)` for a non-empty needle: replace each
occurrence found by the left-to-right non-overlapping scan. -/
def replaceAllStr : Text → Text → Text → Text
  | [], _, _ => []
  | c :: t', n, r =>
    if h : n ≠ [] ∧ n.isPrefixOf (c :: t') then r ++ replaceAllStr ((c :: t').drop n.length) n r
    else c :: replaceAllStr t' n r
termination_by t _ _ => t.length
decreasing_by
  · simp only [List.length_drop, List.length_cons]
    have : 1 ≤ n.length := List.length_pos.mpr h.1
    omega
  · simp

/-- `struct ConflictState` from `editor.rs`. -/
structure ConflictState where
  external : Text
  hunks : List (ConflictHunk Text)
deriving DecidableEq, Repr

/-- `struct HistoryState` from `editor.rs`. -/
structure HistoryState where
  text : Text
  cursor : Nat
  dirty : Bool
  conflict : Option ConflictState
deriving DecidableEq, Repr

/-- `struct EditorBuffer` from `editor.rs`.  The stacks are stored
most-recent-first: Rust pushes and pops at the end of the `Vec` and evicts
overflow from the front; the model conses and pops at the head and evicts
with `take`. -/
structure EditorBuffer where
  text : Text
  cursor : Nat
  dirty : Bool
  conflict : Option ConflictState
  undo_stack : List HistoryState
  redo_stack : List HistoryState
deriving DecidableEq, Repr

/-- `const MAX_HISTORY_ENTRIES: usize = 128`. -/
def MAX_HISTORY_ENTRIES : Nat := 128

/-- `EditorBuffer::new`. -/
def EditorBuffer.new (t : Text) : EditorBuffer :=
  { text := t, cursor := byteLen t, dirty := false, conflict := none,
    undo_stack := [], redo_stack := [] }

/-- `EditorBuffer::snapshot`. -/
def snapshot (b : EditorBuffer) : HistoryState :=
  { text := b.text, cursor := b.cursor, dirty := b.dirty, conflict := b.conflict }

/-- `EditorBuffer::push_history`: push, then evict the oldest entries down
to capacity (keep the `MAX_HISTORY_ENTRIES` newest). -/
def push_history (stack : List HistoryState) (s : HistoryState) : List HistoryState :=
  (s :: stack).take MAX_HISTORY_ENTRIES

/-- `EditorBuffer::insert_char`: snapshot, clear redo, insert the char at
the cursor byte offset, advance the cursor by its UTF-8 length. -/
def insert_char (b : EditorBuffer) (c : Char) : EditorBuffer :=
  { text := takeBytes b.text b.cursor ++ c :: dropBytes b.text b.cursor
    cursor := b.cursor + c.utf8Size
    dirty := true
    conflict := b.conflict
    undo_stack := push_history b.undo_stack (snapshot b)
    redo_stack := [] }

/-- `EditorBuffer::insert_newline`. -/
def insert_newline (b : EditorBuffer) : EditorBuffer := insert_char b '\n'

/-- `EditorBuffer::backspace`: no-op at offset 0, else remove the bytes
between the previous boundary and the cursor. -/
def backspace (b : EditorBuffer) : EditorBuffer :=
  if b.cursor = 0 then b
  else
    { text := takeBytes b.text (prev_char_boundary b.text b.cursor) ++ dropBytes b.text b.cursor
      cursor := prev_char_boundary b.text b.cursor
      dirty := true
      conflict := b.conflict
      undo_stack := push_history b.undo_stack (snapshot b)
      redo_stack := [] }

/-- `EditorBuffer::undo`. -/
def undo (b : EditorBuffer) : Bool × EditorBuffer :=
  match b.undo_stack with
  | [] => (false, b)
  | prev :: rest =>
    (true,
      { text := prev.text, cursor := prev.cursor, dirty := prev.dirty,
        conflict := prev.conflict,
        undo_stack := rest
        redo_stack := push_history b.redo_stack (snapshot b) })

/-- `EditorBuffer::redo`. -/
def redo (b : EditorBuffer) : Bool × EditorBuffer :=
  match b.redo_stack with
  | [] => (false, b)
  | next :: rest =>
    (true,
      { text := next.text, cursor := next.cursor, dirty := next.dirty,
        conflict := next.conflict,
        undo_stack := push_history b.undo_stack (snapshot b)
        redo_stack := rest })

/-- The `start` offset of `find_next`/`replace_next`: `0` once the cursor
is at or past the end, otherwise the next boundary past the cursor. -/
def findStart (b : EditorBuffer) : Nat :=
  if byteLen b.text ≤ b.cursor then 0 else next_char_boundary b.text b.cursor

/-- The forward search of `find_next`/`replace_next`: first match in
`text[s..]` (at absolute byte offset), else first match inside `text[..s]`,
else none. -/
def findMatchFrom (t : Text) (s : Nat) (n : Text) : Option Nat :=
  match charFind (dropBytes t s) n with
  | some k => some (s + byteLen ((dropBytes t s).take k))
  | none => (charFind (takeBytes t s) n).map fun k => byteLen ((takeBytes t s).take k)

/-- The `start` offset of `find_prev`: `len` at offset 0, otherwise the
previous boundary. -/
def findPrevStart (b : EditorBuffer) : Nat :=
  if b.cursor = 0 then byteLen b.text else prev_char_boundary b.text b.cursor

/-- The backward search of `find_prev`: last match inside `text[..s]`,
else last match in `text[s..]` (at absolute byte offset), else none. -/
def rfindMatchFrom (t : Text) (s : Nat) (n : Text) : Option Nat :=
  match charRFind (takeBytes t s) n with
  | some k => some (byteLen ((takeBytes t s).take k))
  | none =>
    match charRFind (dropBytes t s) n with
    | some k => some (s + byteLen ((dropBytes t s).take k))
    | none => none

/-- `EditorBuffer::find_next`: search from just past the cursor, wrapping
once to the prefix before that point; on success the cursor moves to the
match start. -/
def find_next (b : EditorBuffer) (n : Text) : Bool × EditorBuffer :=
  if n = [] then (false, b)
  else
    match findMatchFrom b.text (findStart b) n with
    | some m => (true, { b with cursor := m })
    | none => (false, b)

/-- `EditorBuffer::find_prev`: search backward from just before the cursor,
wrapping once to the suffix after that point. -/
def find_prev (b : EditorBuffer) (n : Text) : Bool × EditorBuffer :=
  if n = [] then (false, b)
  else
    match rfindMatchFrom b.text (findPrevStart b) n with
    | some m => (true, { b with cursor := m })
    | none => (false, b)

/-- `EditorBuffer::replace_next`: locate the next match as `find_next`
would, replace it, put the cursor at the end of the replacement. -/
def replace_next (b : EditorBuffer) (n r : Text) : Bool × EditorBuffer :=
  if n = [] then (false, b)
  else
    match findMatchFrom b.text (findStart b) n with
    | none => (false, b)
    | some m =>
      (true,
        { text := takeBytes b.text m ++ r ++ dropBytes b.text (m + byteLen n)
          cursor := m + byteLen r
          dirty := true
          conflict := b.conflict
          undo_stack := push_history b.undo_stack (snapshot b)
          redo_stack := [] })

/-- `EditorBuffer::replace_all`. -/
def replace_all (b : EditorBuffer) (n r : Text) : Nat × EditorBuffer :=
  if n = [] then (0, b)
  else if ¬ containsSub b.text n then (0, b)
  else
    (countOccs b.text n,
      { text := replaceAllStr b.text n r
        cursor := byteLen (replaceAllStr b.text n r)
        dirty := true
        conflict := b.conflict
        undo_stack := push_history b.undo_stack (snapshot b)
        redo_stack := [] })

/-- `EditorBuffer::move_left`. -/
def move_left (b : EditorBuffer) : EditorBuffer :=
  if b.cursor = 0 then b else { b with cursor := prev_char_boundary b.text b.cursor }

/-- `EditorBuffer::move_right`. -/
def move_right (b : EditorBuffer) : EditorBuffer :=
  if byteLen b.text ≤ b.cursor then b
  else { b with cursor := next_char_boundary b.text b.cursor }

/-- `EditorBuffer::move_up`. -/
def move_up (b : EditorBuffer) : EditorBuffer :=
  if (line_col_at b.text b.cursor).1 = 0 then b
  else
    { b with
      cursor :=
        index_at_line_col b.text ((line_col_at b.text b.cursor).1 - 1)
          (line_col_at b.text b.cursor).2 }

/-- `EditorBuffer::move_down`. -/
def move_down (b : EditorBuffer) : EditorBuffer :=
  if max (linesCount b.text) 1 ≤ (line_col_at b.text b.cursor).1 + 1 then b
  else
    { b with
      cursor :=
        index_at_line_col b.text ((line_col_at b.text b.cursor).1 + 1)
          (line_col_at b.text b.cursor).2 }

/-- `EditorBuffer::goto_line` (1-based). -/
def goto_line (b : EditorBuffer) (ln : Nat) : Bool × EditorBuffer :=
  if ln = 0 then (false, b)
  else if max (splitLines b.text).length 1 < ln then (false, b)
  else (true, { b with cursor := index_at_line_col b.text (ln - 1) 0 })

/-- `EditorBuffer::set_from_disk`. -/
def set_from_disk (b : EditorBuffer) (t : Text) : EditorBuffer :=
  { b with text := t, cursor := byteLen t, dirty := false, conflict := none }

/-- `EditorBuffer::on_external_change`: while dirty, unconditionally record
a conflict whose hunks are the diff against the new external text; while
clean, silently reload. -/
def on_external_change (b : EditorBuffer) (ext : Text) : EditorBuffer :=
  if b.dirty then
    { b with conflict := some { external := ext, hunks := compute_conflict_hunks b.text ext } }
  else set_from_disk b ext

/-- `EditorBuffer::keep_local`. -/
def keep_local (b : EditorBuffer) : EditorBuffer := { b with conflict := none }

/-- `EditorBuffer::reload_external`. -/
def reload_external (b : EditorBuffer) : EditorBuffer :=
  match b.conflict with
  | none => b
  | some c => set_from_disk b c.external

/-- `EditorBuffer::merge_external`. -/
def merge_external (b : EditorBuffer) : EditorBuffer :=
  match b.conflict with
  | none => b
  | some c =>
    let t :=
      "<<<<<<< local\n".data ++ b.text ++ "\n=======\n".data ++ c.external ++
        "\n>>>>>>> external\n".data
    { b with text := t, cursor := byteLen t, dirty := true, conflict := none }

/-- `EditorBuffer::apply_external_hunk`: splice the hunk's external lines
over its local line span, then recompute the whole diff against the same
external text, clearing the conflict when no hunks remain. -/
def apply_external_hunk (b : EditorBuffer) (i : Nat) : Bool × EditorBuffer :=
  match b.conflict with
  | none => (false, b)
  | some c =>
    match c.hunks[i]? with
    | none => (false, b)
    | some h =>
      let lines := splitLines b.text
      let start := min h.local_start lines.length
      let stop := min (start + h.local_lines.length) lines.length
      let newText := joinLines (lines.take start ++ h.external_lines ++ lines.drop stop)
      let hunks := compute_conflict_hunks newText c.external
      (true,
        { b with
          text := newText
          cursor := index_at_line_col newText start 0
          dirty := true
          conflict :=
            if hunks = [] then none else some { external := c.external, hunks := hunks } })

/-- `EditorBuffer::save_to_path`.  `fs::write` belongs to the OS; its
outcome is the Boolean parameter and `disk` is the current file content.
On success the file holds the buffer text verbatim and dirty/conflict are
cleared; on failure the `?` operator returns before any mutation. -/
def save_to_path (b : EditorBuffer) (writeOk : Bool) (disk : Text) :
    Bool × Text × EditorBuffer :=
  if writeOk then (true, b.text, { b with dirty := false, conflict := none })
  else (false, disk, b)

/-- One public `EditorBuffer` operation (the save case carries the outcome
of the external write). -/
inductive BufferOp
  | insert (c : Char)
  | newline
  | back
  | left
  | right
  | up
  | down
  | undoOp
  | redoOp
  | findN (n : Text)
  | findP (n : Text)
  | replN (n r : Text)
  | replA (n r : Text)
  | goto (ln : Nat)
  | external (ext : Text)
  | keep
  | reload
  | merge
  | applyHunk (i : Nat)
  | save (ok : Bool)

/-- Effect of one public operation on the buffer state. -/
def step (b : EditorBuffer) : BufferOp → EditorBuffer
  | .insert c => insert_char b c
  | .newline => insert_newline b
  | .back => backspace b
  | .left => move_left b
  | .right => move_right b
  | .up => move_up b
  | .down => move_down b
  | .undoOp => (undo b).2
  | .redoOp => (redo b).2
  | .findN n => (find_next b n).2
  | .findP n => (find_prev b n).2
  | .replN n r => (replace_next b n r).2
  | .replA n r => (replace_all b n r).2
  | .goto ln => (goto_line b ln).2
  | .external ext => on_external_change b ext
  | .keep => keep_local b
  | .reload => reload_external b
  | .merge => merge_external b
  | .applyHunk i => (apply_external_hunk b i).2
  | .save ok => (save_to_path b ok []).2.2

/-- Buffer states reachable from `EditorBuffer::new` through the public
operations. -/
inductive Reachable : EditorBuffer → Prop
  | init (t : Text) : Reachable (EditorBuffer.new t)
  | next {b : EditorBuffer} (op : BufferOp) : Reachable b → Reachable (step b op)

/-! ## Markdown renderer: `crates/mdv-core/src/markdown.rs`

`render_preview_lines` drives the external `pulldown_cmark` parser; the
embedding is the renderer's `for` loop as a fold over the event stream.
The field `pending_prefix` and the helpers `quote_prefix`,
`take_line_prefix` and `heading_prefix` are named `pendingPref`,
`quotePref`, `takeLinePref` and `headingPref` here. -/

/-- Tags of `pulldown_cmark::Tag`/`TagEnd` distinguished by the renderer
(`OtherTag` covers the `_ => {}` arms). -/
inductive MdTag
  | Paragraph
  | Heading (level : Nat)
  | BlockQuote
  | ListTag (start : Option Nat)
  | Item
  | CodeBlock (fenced : Bool) (lang : Text)
  | Table
  | TableHead
  | TableRow
  | TableCell
  | Link (dest : Text)
  | Image (dest : Text)
  | OtherTag
deriving DecidableEq, Repr

/-- `pulldown_cmark::Event` as consumed by the renderer (`Html` and
`InlineHtml` share one handler, as do the two math events). -/
inductive MdEvent
  | Start (tag : MdTag)
  | End (tag : MdTag)
  | TextEv (s : Text)
  | Code (s : Text)
  | SoftBreak
  | HardBreak
  | TaskListMarker (done : Bool)
  | Rule
  | Html (s : Text)
  | FootnoteReference (name : Text)
  | MathEv (s : Text)
deriving DecidableEq, Repr

/-- `enum LinkState` from `markdown.rs`. -/
inductive LinkState
  | link (text : Text) (dest : Text)
  | image (alt : Text) (dest : Text)
deriving DecidableEq, Repr

/-- `struct ListState` from `markdown.rs`. -/
structure ListState where
  ordered : Bool
  next_index : Nat
deriving DecidableEq, Repr

/-- `struct Renderer` from `markdown.rs`.  Stacks are head-first (Rust
pushes, pops and reads `last_mut` at the `Vec` end). -/
structure Renderer where
  width : Nat
  lines : List Text
  current : Text
  blockquote_depth : Nat
  pendingPref : Option Text
  list_stack : List ListState
  link_stack : List LinkState
  in_code_block : Bool
  table_head_needs_separator : Bool
  in_table_cell : Bool
  table_row : List Text
  table_cell : Text
deriving DecidableEq, Repr

/-- `Renderer::new`. -/
def Renderer.new (width : Nat) : Renderer :=
  { width := width, lines := [], current := [], blockquote_depth := 0, pendingPref := none,
    list_stack := [], link_stack := [], in_code_block := false,
    table_head_needs_separator := false, in_table_cell := false, table_row := [],
    table_cell := [] }

/-- `Renderer::quote_prefix`: `"> "` repeated `blockquote_depth` times. -/
def quotePref (r : Renderer) : Text := (List.replicate r.blockquote_depth "> ".data).flatten

/-- `Renderer::take_line_prefix`: quote prefix plus the pending item
prefix, consuming the latter. -/
def takeLinePref (r : Renderer) : Text × Renderer :=
  match r.pendingPref with
  | some p => (quotePref r ++ p, { r with pendingPref := none })
  | none => (quotePref r, r)

/-- The chunking loop of `wrap_line`: grow `buf` one char at a time and
emit it whenever it reaches exactly `width` chars. -/
def wrapAux : Text → Nat → Text → List Text
  | [], _, buf => if buf = [] then [] else [buf]
  | c :: cs, width, buf =>
    if (buf ++ [c]).length = width then (buf ++ [c]) :: wrapAux cs width []
    else wrapAux cs width (buf ++ [c])

/-- `wrap_line` from `markdown.rs`: hard character chunking at `width`. -/
def wrap_line (input : Text) (width : Nat) : List Text :=
  if input.length ≤ width then [input] else wrapAux input width []

/-- `Renderer::append_text`. -/
def append_text (r : Renderer) (s : Text) : Renderer :=
  match r.link_stack with
  | LinkState.link t d :: rest => { r with link_stack := LinkState.link (t ++ s) d :: rest }
  | LinkState.image a d :: rest => { r with link_stack := LinkState.image (a ++ s) d :: rest }
  | [] =>
    if r.in_table_cell then { r with table_cell := r.table_cell ++ s }
    else if r.current = [] then
      { r with current := (takeLinePref r).1 ++ s, pendingPref := none }
    else { r with current := r.current ++ s }

/-- `Renderer::flush_current`. -/
def flush_current (r : Renderer) : Renderer :=
  if r.current = [] then r
  else { r with current := [], lines := r.lines ++ wrap_line r.current r.width }

/-- `Renderer::push_line`. -/
def push_line (r : Renderer) (line : Text) : Renderer :=
  let r1 := flush_current r
  { r1 with lines := r1.lines ++ wrap_line line r1.width }

/-- The chunks visited by `push_code_text`: `split('\n')` minus a trailing
empty chunk. -/
def codeChunks (s : Text) : List Text :=
  if (splitLines s).getLast? = some [] then (splitLines s).dropLast else splitLines s

/-- `Renderer::push_code_text`: each chunk becomes a quote-prefixed line. -/
def push_code_text (r : Renderer) (s : Text) : Renderer :=
  (codeChunks s).foldl (fun acc chunk => push_line acc (quotePref acc ++ chunk)) r

/-- `heading_prefix`: `"# "` through `"###### "`. -/
def headingPref (level : Nat) : Text := List.replicate level '#' ++ [' ']

/-- Rust `str::trim` on the fence language. -/
def trimText (s : Text) : Text :=
  ((s.dropWhile (·.isWhitespace)).reverse.dropWhile (·.isWhitespace)).reverse

/-- Decimal rendering of an ordered-list ordinal, Rust `format!("{}. ", n)`
without the suffix. -/
def natText (n : Nat) : Text := (toString n).data

/-- `format!("| {} |", cells.join(" | "))`. -/
def rowText (cells : List Text) : Text :=
  "| ".data ++ List.intercalate " | ".data cells ++ " |".data

/-- One iteration of the `for event in Parser::new_ext(..)` loop of
`render_preview_lines`. -/
def mdStep (r : Renderer) : MdEvent → Renderer
  | .Start tag =>
    match tag with
    | .Heading level => append_text (flush_current r) (headingPref level)
    | .BlockQuote =>
      { flush_current r with blockquote_depth := (flush_current r).blockquote_depth + 1 }
    | .ListTag start =>
      { flush_current r with
        list_stack :=
          { ordered := start.isSome, next_index := start.getD 1 } ::
            (flush_current r).list_stack }
    | .Item =>
      match (flush_current r).list_stack with
      | [] => flush_current r
      | l :: rest =>
        { flush_current r with
          list_stack := (if l.ordered then { l with next_index := l.next_index + 1 } else l) :: rest
          pendingPref :=
            some ((List.replicate ((l :: rest).length - 1) "  ".data).flatten ++
              (if l.ordered then natText l.next_index ++ ". ".data else "- ".data)) }
    | .CodeBlock fenced lang =>
      push_line { flush_current r with in_code_block := true }
        (quotePref r ++ "```".data ++ (if fenced then trimText lang else []))
    | .Table => flush_current r
    | .TableHead => { flush_current r with table_head_needs_separator := true }
    | .TableRow => { flush_current r with table_row := [] }
    | .TableCell => { r with in_table_cell := true, table_cell := [] }
    | .Link dest => { r with link_stack := LinkState.link [] dest :: r.link_stack }
    | .Image dest => { r with link_stack := LinkState.image [] dest :: r.link_stack }
    | .Paragraph => r
    | .OtherTag => r
  | .End tag =>
    match tag with
    | .Heading _ => flush_current r
    | .Paragraph => flush_current r
    | .BlockQuote =>
      { flush_current r with blockquote_depth := (flush_current r).blockquote_depth - 1 }
    | .ListTag _ => { flush_current r with list_stack := (flush_current r).list_stack.tail }
    | .Item => flush_current r
    | .CodeBlock _ _ =>
      push_line { flush_current r with in_code_block := false } (quotePref r ++ "```".data)
    | .TableHead =>
      if r.table_head_needs_separator ∧ r.table_row ≠ [] then
        { push_line (push_line r (quotePref r ++ rowText r.table_row))
            (quotePref r ++ rowText (List.replicate r.table_row.length "-".data)) with
          table_row := [], table_head_needs_separator := false }
      else r
    | .TableRow => push_line r (quotePref r ++ rowText r.table_row)
    | .TableCell =>
      { r with
        in_table_cell := false
        table_row := r.table_row ++ [r.table_cell]
        table_cell := [] }
    | .Link _ =>
      match r.link_stack with
      | LinkState.link t d :: rest =>
        append_text { r with link_stack := rest }
          ("[".data ++ t ++ "](".data ++ d ++ ")".data)
      | _ :: rest => { r with link_stack := rest }
      | [] => r
    | .Image _ =>
      match r.link_stack with
      | LinkState.image a d :: rest =>
        append_text { r with link_stack := rest }
          ("![".data ++ a ++ "](".data ++ d ++ ")".data)
      | _ :: rest => { r with link_stack := rest }
      | [] => r
    | .Table => r
    | .OtherTag => r
  | .TextEv s => if r.in_code_block then push_code_text r s else append_text r s
  | .Code s => append_text r ("`".data ++ s ++ "`".data)
  | .SoftBreak => if r.link_stack ≠ [] then append_text r [' '] else flush_current r
  | .HardBreak => flush_current r
  | .TaskListMarker done => append_text r (if done then "[x] ".data else "[ ] ".data)
  | .Rule => push_line (flush_current r) (quotePref r ++ "---".data)
  | .Html s => append_text r s
  | .FootnoteReference name => append_text r name
  | .MathEv s => append_text r s

/-- `render_preview_lines`, from the parser's event stream on: clamp the
width to at least 8, fold the events, flush, and never return zero lines. -/
def render_preview_lines (events : List MdEvent) (width : Nat) : List Text :=
  if (flush_current (events.foldl mdStep (Renderer.new (max width 8)))).lines = [] then [[]]
  else (flush_current (events.foldl mdStep (Renderer.new (max width 8)))).lines

/-- Modelled from the spec: the markdown parser is the external
`pulldown_cmark` crate, not code of this repository.  Its event stream for
the plain one-line paragraph input `"abcdefghij"` (spec §8:
`render("abcdefghij", 4)`). -/
def eventsPlainParagraph : List MdEvent :=
  [.Start .Paragraph, .TextEv "abcdefghij".data, .End .Paragraph]

/-- Modelled from the spec: the external parser's event stream for the
fenced-code input consisting of one code block with single interior line
`"abcdefghij"` (fenced code emits one text event carrying the interior
text with its trailing newline). -/
def eventsLongCodeLine : List MdEvent :=
  [.Start (.CodeBlock true []), .TextEv "abcdefghij\n".data, .End (.CodeBlock true [])]

/-! ## Claim-level helper predicates -/

/-- Disjoint, strictly ascending hunks on both coordinate systems. -/
def hunksSorted {α : Type} (hs : List (ConflictHunk α)) : Prop :=
  List.Chain'
    (fun h h' =>
      h.local_start + h.local_lines.length < h'.local_start ∧
        h.external_start + h.external_lines.length < h'.external_start)
    hs

/-- A possibly-present conflict record has sorted, disjoint hunks. -/
def ConflictOK : Option ConflictState → Prop
  | none => True
  | some cs => hunksSorted cs.hunks

/-- The cursor sits on a character boundary (which entails
`cursor ≤ byteLen text`). -/
def IsBnd (t : Text) (i : Nat) : Prop := is_char_boundary t i = true

/-- Cursor validity of the live state and of every stored snapshot. -/
def CursorInv (b : EditorBuffer) : Prop :=
  IsBnd b.text b.cursor ∧ (∀ s ∈ b.undo_stack, IsBnd s.text s.cursor) ∧
    ∀ s ∈ b.redo_stack, IsBnd s.text s.cursor

/-- Conflict-record well-formedness of the live state and of every stored
snapshot. -/
def ConflictInv (b : EditorBuffer) : Prop :=
  ConflictOK b.conflict ∧ (∀ s ∈ b.undo_stack, ConflictOK s.conflict) ∧
    ∀ s ∈ b.redo_stack, ConflictOK s.conflict

/-- The mutating edit operations of §4.1 (the ones that snapshot to the
undo stack and clear the redo stack when they take effect). -/
inductive EditOp
  | ins (c : Char)
  | nl
  | bsp
  | rnext (n r : Text)
  | rall (n r : Text)

/-- Apply one edit operation. -/
def applyEdit (b : EditorBuffer) : EditOp → EditorBuffer
  | .ins c => insert_char b c
  | .nl => insert_newline b
  | .bsp => backspace b
  | .rnext n r => (replace_next b n r).2
  | .rall n r => (replace_all b n r).2

/-- The edit actually mutates (and hence snapshots): backspace away from
offset 0, replace with a genuine match. -/
def Effective (b : EditorBuffer) : EditOp → Prop
  | .ins _ => True
  | .nl => True
  | .bsp => b.cursor ≠ 0
  | .rnext n r => (replace_next b n r).1 = true
  | .rall n r => 0 < (replace_all b n r).1

/-- Apply a sequence of edits in order. -/
def applyEdits (b : EditorBuffer) (ops : List EditOp) : EditorBuffer :=
  ops.foldl applyEdit b

/-- Every edit of the sequence is effective in the state it runs in. -/
def EffectiveSeq : EditorBuffer → List EditOp → Prop
  | _, [] => True
  | b, op :: ops => Effective b op ∧ EffectiveSeq (applyEdit b op) ops

/-- `k` successive undos. -/
def undoN : Nat → EditorBuffer → EditorBuffer
  | 0, b => b
  | k + 1, b => (undo (undoN k b)).2

/-- All character positions at which the needle occurs in the text. -/
def occList (t n : Text) : List Nat :=
  (List.range (t.length + 1)).filter fun k => n.isPrefixOf (t.drop k)

/-- Agreement on everything except the redo stack. -/
def SameCore (a b : EditorBuffer) : Prop :=
  a.text = b.text ∧ a.cursor = b.cursor ∧ a.dirty = b.dirty ∧ a.conflict = b.conflict ∧
    a.undo_stack = b.undo_stack

/-- Alignment of an edit script with the two line sequences it relates:
`Equal` consumes one identical line from both sides, `Delete` consumes a
local line, `Insert` consumes an external line. -/
inductive Aligned {α : Type} : List Op → List α → List α → Prop
  | nil : Aligned [] [] []
  | equal (a : α) {ops : List Op} {xs ys : List α} :
      Aligned ops xs ys → Aligned (Op.Equal :: ops) (a :: xs) (a :: ys)
  | delete (a : α) {ops : List Op} {xs ys : List α} :
      Aligned ops xs ys → Aligned (Op.Delete :: ops) (a :: xs) ys
  | insert (a : α) {ops : List Op} {xs ys : List α} :
      Aligned ops xs ys → Aligned (Op.Insert :: ops) xs (a :: ys)

/-! ## Diff-engine lemmas (towards C1 and C2) -/

theorem aligned_inserts {α : Type} : ∀ ys : List α, Aligned (ys.map fun _ => Op.Insert) [] ys
  | [] => Aligned.nil
  | y :: ys => Aligned.insert y (aligned_inserts ys)

theorem aligned_deletes {α : Type} : ∀ xs : List α, Aligned (xs.map fun _ => Op.Delete) xs []
  | [] => Aligned.nil
  | x :: xs => Aligned.delete x (aligned_deletes xs)

/-- The backtracked edit script aligns the two line sequences. -/
theorem aligned_diffOps {α : Type} [DecidableEq α] :
    ∀ xs ys : List α, Aligned (diffOps xs ys) xs ys := by
  intro xs ys
  induction xs, ys using diffOps.induct with
  | case1 ys => simpa [diffOps] using aligned_inserts ys
  | case2 x xs => simpa [diffOps] using aligned_deletes (x :: xs)
  | case3 xs y ys ih =>
    simpa [diffOps] using Aligned.equal y ih
  | case4 x xs y ys hne hle ih =>
    simp only [diffOps, if_neg hne, if_pos hle]
    exact Aligned.delete x ih
  | case5 x xs y ys hne hgt ih =>
    simp only [diffOps, if_neg hne, if_neg hgt]
    exact Aligned.insert y ih

theorem aligned_nil_inv {α : Type} {L E : List α} (h : Aligned [] L E) : L = [] ∧ E = [] := by
  cases h; exact ⟨rfl, rfl⟩

theorem aligned_equal_inv {α : Type} {ops : List Op} {L E : List α}
    (h : Aligned (Op.Equal :: ops) L E) :
    ∃ a L' E', L = a :: L' ∧ E = a :: E' ∧ Aligned ops L' E' := by
  cases h with
  | equal a h' => exact ⟨a, _, _, rfl, rfl, h'⟩

theorem aligned_delete_inv {α : Type} {ops : List Op} {L E : List α}
    (h : Aligned (Op.Delete :: ops) L E) :
    ∃ a L', L = a :: L' ∧ Aligned ops L' E := by
  cases h with
  | delete a h' => exact ⟨a, _, rfl, h'⟩

theorem aligned_insert_inv {α : Type} {ops : List Op} {L E : List α}
    (h : Aligned (Op.Insert :: ops) L E) :
    ∃ a E', E = a :: E' ∧ Aligned ops L E' := by
  cases h with
  | insert a h' => exact ⟨a, _, rfl, h'⟩

theorem runSplit_append : ∀ ops : List Op, (runSplit ops).1 ++ (runSplit ops).2 = ops := by
  intro ops
  induction ops with
  | nil => simp [runSplit]
  | cons op rest ih => cases op <;> simp [runSplit, ih]

theorem runSplit_fst_delIns :
    ∀ ops : List Op, ∀ op ∈ (runSplit ops).1, op = Op.Delete ∨ op = Op.Insert := by
  intro ops
  induction ops with
  | nil => simp [runSplit]
  | cons op rest ih =>
    cases op with
    | Equal => simp [runSplit]
    | Delete =>
      intro o ho
      simp only [runSplit, List.mem_cons] at ho
      rcases ho with rfl | ho
      · exact Or.inl rfl
      · exact ih o ho
    | Insert =>
      intro o ho
      simp only [runSplit, List.mem_cons] at ho
      rcases ho with rfl | ho
      · exact Or.inr rfl
      · exact ih o ho

theorem runLocals_length {α : Type} [Inhabited α] :
    ∀ (run : List Op) (ls : List α) (li : Nat), (runLocals run ls li).length = numDel run := by
  intro run
  induction run with
  | nil => simp [runLocals, numDel]
  | cons op rest ih => cases op <;> simp [runLocals, numDel, ih]

theorem runExts_length {α : Type} [Inhabited α] :
    ∀ (run : List Op) (es : List α) (ei : Nat), (runExts run es ei).length = numIns run := by
  intro run
  induction run with
  | nil => simp [runExts, numIns]
  | cons op rest ih => cases op <;> simp [runExts, numIns, ih]

theorem getD_of_drop {α : Type} [Inhabited α] :
    ∀ (ls : List α) (li : Nat) (a : α) (l' : List α),
      ls.drop li = a :: l' → ls.getD li default = a := by
  intro ls
  induction ls with
  | nil => intro li a l' h; simp at h
  | cons c cs ih =>
    intro li a l' h
    cases li with
    | zero => simp at h; simp [h.1]
    | succ li => simp only [List.drop_succ_cons] at h; simpa using ih li a l' h

theorem drop_succ_of_drop {α : Type} :
    ∀ (ls : List α) (li : Nat) (a : α) (l' : List α),
      ls.drop li = a :: l' → ls.drop (li + 1) = l' := by
  intro ls li a l' h
  rw [← List.drop_drop, h]
  simp

/-- Decomposing the alignment over a maximal `Delete`/`Insert` run: the
collected chunks are exactly the local/external lines the run consumes. -/
theorem run_decomp {α : Type} [Inhabited α] :
    ∀ (run kont : List Op), (∀ op ∈ run, op = Op.Delete ∨ op = Op.Insert) →
      ∀ (ls es : List α) (li ei : Nat) (L E : List α),
        ls.drop li = L → es.drop ei = E → Aligned (run ++ kont) L E →
        runLocals run ls li = L.take (numDel run) ∧
          runExts run es ei = E.take (numIns run) ∧
          Aligned kont (L.drop (numDel run)) (E.drop (numIns run)) := by
  intro run
  induction run with
  | nil =>
    intro kont _ ls es li ei L E _ _ hal
    simpa [runLocals, runExts, numDel, numIns] using hal
  | cons op run' ih =>
    intro kont hop ls es li ei L E hL hE hal
    have hrest : ∀ o ∈ run', o = Op.Delete ∨ o = Op.Insert := fun o ho =>
      hop o (List.mem_cons_of_mem _ ho)
    rcases hop op (List.mem_cons_self _ _) with rfl | rfl
    · obtain ⟨a, L', hLa, hal'⟩ := aligned_delete_inv hal
      subst hLa
      have hdrop : ls.drop li = a :: L' := hL
      have hL' : ls.drop (li + 1) = L' := drop_succ_of_drop ls li a L' hdrop
      obtain ⟨h1, h2, h3⟩ := ih kont hrest ls es (li + 1) ei L' E hL' hE hal'
      refine ⟨?_, ?_, ?_⟩
      · simp only [runLocals, numDel, List.take_succ_cons, h1,
          getD_of_drop ls li a L' hdrop]
      · simpa [runExts, numIns] using h2
      · simpa [numDel, numIns, List.drop_succ_cons] using h3
    · obtain ⟨a, E', hEa, hal'⟩ := aligned_insert_inv hal
      subst hEa
      have hdrop : es.drop ei = a :: E' := hE
      have hE' : es.drop (ei + 1) = E' := drop_succ_of_drop es ei a E' hdrop
      obtain ⟨h1, h2, h3⟩ := ih kont hrest ls es li (ei + 1) L E' hL hE' hal'
      refine ⟨?_, ?_, ?_⟩
      · simpa [runLocals, numDel] using h1
      · simp only [runExts, numIns, List.take_succ_cons, h2,
          getD_of_drop es ei a E' hdrop]
      · simpa [numDel, numIns, List.drop_succ_cons] using h3

/-- Every hunk the collection loop emits starts at or after the running
local index. -/
theorem hunksGo_head_start {α : Type} [Inhabited α] :
    ∀ (ops : List Op) (ls es : List α) (li ei : Nat) (h : ConflictHunk α)
      (hs' : List (ConflictHunk α)),
      hunksGo ops ls es li ei = h :: hs' → li ≤ h.local_start := by
  intro ops ls es li ei
  induction ops, ls, es, li, ei using hunksGo.induct with
  | case1 => intro h hs' heq; simp [hunksGo] at heq
  | case2 rest ls es li ei ih =>
    intro h hs' heq
    simp only [hunksGo] at heq
    exact Nat.le_of_succ_le (ih h hs' heq)
  | case3 rest ls es li ei ih =>
    intro h hs' heq
    simp only [hunksGo, List.cons.injEq] at heq
    rw [← heq.1]
  | case4 rest ls es li ei ih =>
    intro h hs' heq
    simp only [hunksGo, List.cons.injEq] at heq
    rw [← heq.1]

/-- Splicing hunks that all start past position `li` skips the head line. -/
theorem spliceSkip {α : Type} (li : Nat) (a : α) (l' : List α)
    (hs : List (ConflictHunk α))
    (hhead : ∀ h hs', hs = h :: hs' → li + 1 ≤ h.local_start) :
    spliceHunksFrom li (a :: l') hs = a :: spliceHunksFrom (li + 1) l' hs := by
  cases hs with
  | nil => simp [spliceHunksFrom]
  | cons h t =>
    have hk : h.local_start - li = (h.local_start - (li + 1)) + 1 := by
      have := hhead h t rfl
      omega
    simp only [spliceHunksFrom, hk, Nat.add_right_comm (h.local_start - (li + 1)) 1,
      List.take_succ_cons, List.drop_succ_cons, List.cons_append]

/-- Core correctness of `compute_conflict_hunks`: splicing the collected
hunks over the aligned local suffix yields the external suffix. -/
theorem hunksGo_splice {α : Type} [Inhabited α] :
    ∀ (ops : List Op) (ls es : List α) (li ei : Nat),
      Aligned ops (ls.drop li) (es.drop ei) →
      spliceHunksFrom li (ls.drop li) (hunksGo ops ls es li ei) = es.drop ei := by
  intro ops ls es li ei
  induction ops, ls, es, li, ei using hunksGo.induct with
  | case1 ls es li ei =>
    intro hal
    obtain ⟨hL, hE⟩ := aligned_nil_inv hal
    simp [hunksGo, spliceHunksFrom, hL, hE]
  | case2 rest ls es li ei ih =>
    intro hal
    obtain ⟨a, L', E', hL, hE, hal'⟩ := aligned_equal_inv hal
    have hL' : ls.drop (li + 1) = L' := drop_succ_of_drop ls li a L' hL
    have hE' : es.drop (ei + 1) = E' := drop_succ_of_drop es ei a E' hE
    simp only [hunksGo]
    rw [hL, spliceSkip li a L' _ (fun h hs' heq => hunksGo_head_start _ _ _ _ _ _ _ heq)]
    rw [← hL', ih (by rw [hL', hE']; exact hal'), hE', hE]
  | case3 rest ls es li ei ih =>
    intro hal
    have happ := runSplit_append (Op.Delete :: rest)
    rw [← happ] at hal
    obtain ⟨h1, h2, h3⟩ :=
      run_decomp _ _ (runSplit_fst_delIns (Op.Delete :: rest)) ls es li ei _ _ rfl rfl hal
    have hdl : (ls.drop li).drop (numDel (runSplit (Op.Delete :: rest)).1) =
        ls.drop (li + numDel (runSplit (Op.Delete :: rest)).1) := by
      rw [List.drop_drop]
    have hde : (es.drop ei).drop (numIns (runSplit (Op.Delete :: rest)).1) =
        es.drop (ei + numIns (runSplit (Op.Delete :: rest)).1) := by
      rw [List.drop_drop]
    rw [hdl, hde] at h3
    simp only [hunksGo, spliceHunksFrom, Nat.sub_self, List.take_zero, List.nil_append,
      Nat.zero_add, runLocals_length]
    rw [hdl, ih h3, h2, ← hde]
    exact List.take_append_drop _ _
  | case4 rest ls es li ei ih =>
    intro hal
    have happ := runSplit_append (Op.Insert :: rest)
    rw [← happ] at hal
    obtain ⟨h1, h2, h3⟩ :=
      run_decomp _ _ (runSplit_fst_delIns (Op.Insert :: rest)) ls es li ei _ _ rfl rfl hal
    have hdl : (ls.drop li).drop (numDel (runSplit (Op.Insert :: rest)).1) =
        ls.drop (li + numDel (runSplit (Op.Insert :: rest)).1) := by
      rw [List.drop_drop]
    have hde : (es.drop ei).drop (numIns (runSplit (Op.Insert :: rest)).1) =
        es.drop (ei + numIns (runSplit (Op.Insert :: rest)).1) := by
      rw [List.drop_drop]
    rw [hdl, hde] at h3
    simp only [hunksGo, spliceHunksFrom, Nat.sub_self, List.take_zero, List.nil_append,
      Nat.zero_add, runLocals_length]
    rw [hdl, ih h3, h2, ← hde]
    exact List.take_append_drop _ _

theorem diffOps_self {α : Type} [DecidableEq α] :
    ∀ ls : List α, diffOps ls ls = ls.map fun _ => Op.Equal := by
  intro ls
  induction ls with
  | nil => simp [diffOps]
  | cons a l ih => simp [diffOps, ih]

theorem hunksGo_all_equal {α : Type} [Inhabited α] {β : Type} :
    ∀ (xs : List β) (ls es : List α) (li ei : Nat),
      hunksGo (xs.map fun _ => Op.Equal) ls es li ei = [] := by
  intro xs
  induction xs with
  | nil => intro ls es li ei; simp [hunksGo]
  | cons x xs ih => intro ls es li ei; simp only [List.map_cons, hunksGo]; exact ih ls es _ _

theorem splitLines_ne_nil : ∀ t : Text, splitLines t ≠ [] := by
  intro t
  induction t with
  | nil => simp [splitLines]
  | cons c cs ih =>
    by_cases hc : c = '\n'
    · simp [splitLines, hc]
    · simp only [splitLines, if_neg hc]
      cases h : splitLines cs <;> simp

theorem join_split : ∀ t : Text, joinLines (splitLines t) = t := by
  intro t
  induction t with
  | nil => simp [splitLines, joinLines]
  | cons c cs ih =>
    by_cases hc : c = '\n'
    · subst hc
      simp only [splitLines, if_pos rfl]
      cases h : splitLines cs with
      | nil => exact absurd h (splitLines_ne_nil cs)
      | cons l rest =>
        rw [h] at ih
        simp only [joinLines, List.nil_append]
        rw [ih]
    · simp only [splitLines, if_neg hc]
      cases h : splitLines cs with
      | nil => exact absurd h (splitLines_ne_nil cs)
      | cons l rest =>
        rw [h] at ih
        cases rest with
        | nil => simp only [joinLines] at ih ⊢; rw [ih]
        | cons r rs => simp only [joinLines, List.cons_append] at ih ⊢; rw [ih]

/-- C1: for all texts A and B, splicing each hunk of
`compute_conflict_hunks(A, B)` in order — replacing the hunk's local line
span in A with its external lines — transforms A into exactly B, and the
self-diff `compute_conflict_hunks(A, A)` is empty. -/
theorem C1_diff_splice_roundtrip :
    ∀ a b : Text,
      joinLines (spliceHunksFrom 0 (splitLines a) (compute_conflict_hunks a b)) = b ∧
        compute_conflict_hunks a a = [] := by
  intro a b
  constructor
  · have hal : Aligned (diffOps (splitLines a) (splitLines b)) ((splitLines a).drop 0)
        ((splitLines b).drop 0) := by
      simpa using aligned_diffOps (splitLines a) (splitLines b)
    have h := hunksGo_splice (diffOps (splitLines a) (splitLines b)) (splitLines a)
      (splitLines b) 0 0 hal
    simp only [List.drop_zero] at h
    unfold compute_conflict_hunks computeHunksLines
    rw [h, join_split]
  · unfold compute_conflict_hunks computeHunksLines
    rw [diffOps_self]
    exact hunksGo_all_equal _ _ _ _ _

/-- The self-diff is empty: equal texts produce an all-`Equal` script and
no hunks. -/
theorem compute_conflict_hunks_self : ∀ t : Text, compute_conflict_hunks t t = [] := by
  intro t
  unfold compute_conflict_hunks computeHunksLines
  rw [diffOps_self]
  exact hunksGo_all_equal _ _ _ _ _

theorem hunksGo_mem_start {α : Type} [Inhabited α] :
    ∀ (ops : List Op) (ls es : List α) (li ei : Nat),
      ∀ h ∈ hunksGo ops ls es li ei, li ≤ h.local_start ∧ ei ≤ h.external_start := by
  intro ops ls es li ei
  induction ops, ls, es, li, ei using hunksGo.induct with
  | case1 => intro h hm; simp [hunksGo] at hm
  | case2 rest ls es li ei ih =>
    intro h hm
    simp only [hunksGo] at hm
    have := ih h hm
    omega
  | case3 rest ls es li ei ih =>
    intro h hm
    simp only [hunksGo, List.mem_cons] at hm
    rcases hm with rfl | hm
    · exact ⟨Nat.le_refl _, Nat.le_refl _⟩
    · have := ih h hm
      omega
  | case4 rest ls es li ei ih =>
    intro h hm
    simp only [hunksGo, List.mem_cons] at hm
    rcases hm with rfl | hm
    · exact ⟨Nat.le_refl _, Nat.le_refl _⟩
    · have := ih h hm
      omega

theorem runSplit_snd_shape :
    ∀ ops : List Op, (runSplit ops).2 = [] ∨ ∃ r, (runSplit ops).2 = Op.Equal :: r := by
  intro ops
  induction ops with
  | nil => exact Or.inl rfl
  | cons op rest ih =>
    cases op with
    | Equal => exact Or.inr ⟨rest, rfl⟩
    | Delete => simpa [runSplit] using ih
    | Insert => simpa [runSplit] using ih

/-- The collected hunks are disjoint and strictly ascending on both the
local and the external side. -/
theorem hunksGo_sorted {α : Type} [Inhabited α] :
    ∀ (ops : List Op) (ls es : List α) (li ei : Nat),
      hunksSorted (hunksGo ops ls es li ei) := by
  intro ops ls es li ei
  induction ops, ls, es, li, ei using hunksGo.induct with
  | case1 => simp [hunksGo, hunksSorted]
  | case2 rest ls es li ei ih => simpa [hunksGo, hunksSorted] using ih
  | case3 rest ls es li ei ih =>
    simp only [hunksGo, hunksSorted, List.chain'_cons']
    refine ⟨?_, ih⟩
    intro h2 hh2
    have hmem : h2 ∈ hunksGo (runSplit (Op.Delete :: rest)).2 ls es
        (li + numDel (runSplit (Op.Delete :: rest)).1)
        (ei + numIns (runSplit (Op.Delete :: rest)).1) := List.mem_of_mem_head? hh2
    rcases runSplit_snd_shape (Op.Delete :: rest) with hsh | ⟨r, hsh⟩
    · rw [hsh] at hmem; simp [hunksGo] at hmem
    · rw [hsh] at hmem
      simp only [hunksGo] at hmem
      have := hunksGo_mem_start _ _ _ _ _ h2 hmem
      simp only [runLocals_length, runExts_length]
      omega
  | case4 rest ls es li ei ih =>
    simp only [hunksGo, hunksSorted, List.chain'_cons']
    refine ⟨?_, ih⟩
    intro h2 hh2
    have hmem : h2 ∈ hunksGo (runSplit (Op.Insert :: rest)).2 ls es
        (li + numDel (runSplit (Op.Insert :: rest)).1)
        (ei + numIns (runSplit (Op.Insert :: rest)).1) := List.mem_of_mem_head? hh2
    rcases runSplit_snd_shape (Op.Insert :: rest) with hsh | ⟨r, hsh⟩
    · rw [hsh] at hmem; simp [hunksGo] at hmem
    · rw [hsh] at hmem
      simp only [hunksGo] at hmem
      have := hunksGo_mem_start _ _ _ _ _ h2 hmem
      simp only [runLocals_length, runExts_length]
      omega

theorem compute_conflict_hunks_sorted (lo ex : Text) :
    hunksSorted (compute_conflict_hunks lo ex) :=
  hunksGo_sorted _ _ _ _ _

/-! ## Conflict-record invariant over reachable buffer states (C2) -/

theorem mem_push_history {s' s : HistoryState} {stack : List HistoryState}
    (h : s' ∈ push_history stack s) : s' = s ∨ s' ∈ stack := by
  have h2 := List.take_subset MAX_HISTORY_ENTRIES (s :: stack) h
  simpa using h2

theorem conflictInv_edit {b : EditorBuffer} (hinv : ConflictInv b) (t' : Text) (cur : Nat) :
    ConflictInv
      { text := t', cursor := cur, dirty := true, conflict := b.conflict,
        undo_stack := push_history b.undo_stack (snapshot b), redo_stack := [] } := by
  obtain ⟨hc, hu, hr⟩ := hinv
  refine ⟨hc, ?_, by intro s hs; simp at hs⟩
  intro s hs
  rcases mem_push_history hs with rfl | hs
  · exact hc
  · exact hu s hs

/-- Every public operation preserves well-formedness of the conflict
record, live and snapshotted. -/
theorem conflictInv_step {b : EditorBuffer} (op : BufferOp) (hinv : ConflictInv b) :
    ConflictInv (step b op) := by
  obtain ⟨hc, hu, hr⟩ := hinv
  cases op with
  | insert c => exact conflictInv_edit ⟨hc, hu, hr⟩ _ _
  | newline => exact conflictInv_edit ⟨hc, hu, hr⟩ _ _
  | back =>
    simp only [step, backspace]
    split
    · exact ⟨hc, hu, hr⟩
    · exact conflictInv_edit ⟨hc, hu, hr⟩ _ _
  | left =>
    simp only [step, move_left]
    split
    · exact ⟨hc, hu, hr⟩
    · exact ⟨hc, hu, hr⟩
  | right =>
    simp only [step, move_right]
    split
    · exact ⟨hc, hu, hr⟩
    · exact ⟨hc, hu, hr⟩
  | up =>
    simp only [step, move_up]
    split
    · exact ⟨hc, hu, hr⟩
    · exact ⟨hc, hu, hr⟩
  | down =>
    simp only [step, move_down]
    split
    · exact ⟨hc, hu, hr⟩
    · exact ⟨hc, hu, hr⟩
  | undoOp =>
    simp only [step]
    cases hstack : b.undo_stack with
    | nil => simpa [undo, hstack] using ⟨hc, hu, hr⟩
    | cons s rest =>
      simp only [undo, hstack]
      refine ⟨hu s (by rw [hstack]; exact List.mem_cons_self _ _), ?_, ?_⟩
      · intro s' hs'
        exact hu s' (by rw [hstack]; exact List.mem_cons_of_mem _ hs')
      · intro s' hs'
        rcases mem_push_history hs' with rfl | hs'
        · exact hc
        · exact hr s' hs'
  | redoOp =>
    simp only [step]
    cases hstack : b.redo_stack with
    | nil => simpa [redo, hstack] using ⟨hc, hu, hr⟩
    | cons s rest =>
      simp only [redo, hstack]
      refine ⟨hr s (by rw [hstack]; exact List.mem_cons_self _ _), ?_, ?_⟩
      · intro s' hs'
        rcases mem_push_history hs' with rfl | hs'
        · exact hc
        · exact hu s' hs'
      · intro s' hs'
        exact hr s' (by rw [hstack]; exact List.mem_cons_of_mem _ hs')
  | findN n =>
    simp only [step, find_next]
    split
    · exact ⟨hc, hu, hr⟩
    · split
      · exact ⟨hc, hu, hr⟩
      · exact ⟨hc, hu, hr⟩
  | findP n =>
    simp only [step, find_prev]
    split
    · exact ⟨hc, hu, hr⟩
    · split
      · exact ⟨hc, hu, hr⟩
      · exact ⟨hc, hu, hr⟩
  | replN n r =>
    simp only [step, replace_next]
    split
    · exact ⟨hc, hu, hr⟩
    · split
      · exact ⟨hc, hu, hr⟩
      · exact conflictInv_edit ⟨hc, hu, hr⟩ _ _
  | replA n r =>
    simp only [step, replace_all]
    split
    · exact ⟨hc, hu, hr⟩
    · split
      · exact ⟨hc, hu, hr⟩
      · exact conflictInv_edit ⟨hc, hu, hr⟩ _ _
  | goto ln =>
    simp only [step, goto_line]
    split
    · exact ⟨hc, hu, hr⟩
    · split
      · exact ⟨hc, hu, hr⟩
      · exact ⟨hc, hu, hr⟩
  | external ext =>
    simp only [step, on_external_change]
    split
    · exact ⟨compute_conflict_hunks_sorted _ _, hu, hr⟩
    · exact ⟨trivial, hu, hr⟩
  | keep => exact ⟨trivial, hu, hr⟩
  | reload =>
    simp only [step, reload_external]
    split
    · exact ⟨hc, hu, hr⟩
    · exact ⟨trivial, hu, hr⟩
  | merge =>
    simp only [step, merge_external]
    split
    · exact ⟨hc, hu, hr⟩
    · exact ⟨trivial, hu, hr⟩
  | applyHunk i =>
    simp only [step, apply_external_hunk]
    split
    · exact ⟨hc, hu, hr⟩
    · split
      · exact ⟨hc, hu, hr⟩
      · refine ⟨?_, hu, hr⟩
        split
        · exact trivial
        · exact compute_conflict_hunks_sorted _ _
  | save ok =>
    simp only [step, save_to_path]
    split
    · exact ⟨trivial, hu, hr⟩
    · exact ⟨hc, hu, hr⟩

theorem reachable_conflictInv : ∀ b, Reachable b → ConflictInv b := by
  intro b h
  induction h with
  | init t =>
    refine ⟨trivial, ?_, ?_⟩ <;> intro s hs <;> simp [EditorBuffer.new] at hs
  | next op hr ih => exact conflictInv_step op ih

/-- C2 (counterexample): from a dirty buffer with text `"ax"`, an
external-change notification carrying the identical text `"ax"` leaves a
conflict record present — with an empty hunk list and with the local text
equal to the recorded external snapshot — refuting the claimed invariant
that a present record has non-empty hunks and differing texts. -/
theorem C2_counterexample :
    Reachable (on_external_change (insert_char (EditorBuffer.new "a".data) 'x') "ax".data) ∧
      (on_external_change (insert_char (EditorBuffer.new "a".data) 'x') "ax".data).conflict =
        some { external := "ax".data, hunks := [] } ∧
      (on_external_change (insert_char (EditorBuffer.new "a".data) 'x') "ax".data).text =
        "ax".data := by
  have hb : insert_char (EditorBuffer.new "a".data) 'x' =
      { text := "ax".data, cursor := 2, dirty := true, conflict := none,
        undo_stack := [{ text := "a".data, cursor := 1, dirty := false, conflict := none }],
        redo_stack := [] } := by decide
  refine ⟨?_, ?_, ?_⟩
  · exact Reachable.next (BufferOp.external "ax".data)
      (Reachable.next (BufferOp.insert 'x') (Reachable.init "a".data))
  · rw [hb]
    simp only [on_external_change, if_true]
    rw [compute_conflict_hunks_self]
  · rw [hb]
    simp [on_external_change]

/-- C2 (amended): in every reachable buffer state a present conflict
record's hunks are disjoint and in ascending line order (on both
coordinate systems); but an external-change notification arriving while
dirty always leaves a conflict record present, and when the external text
equals the current text that record's hunk list is empty. -/
theorem C2_conflict_invariant_amended :
    (∀ b, Reachable b → ∀ cs, b.conflict = some cs → hunksSorted cs.hunks) ∧
      ∀ b, b.dirty = true →
        (on_external_change b b.text).conflict = some { external := b.text, hunks := [] } := by
  constructor
  · intro b hb cs hcs
    have h := (reachable_conflictInv b hb).1
    rw [hcs] at h
    exact h
  · intro b hd
    simp only [on_external_change, hd, if_true]
    rw [compute_conflict_hunks_self]

/-- Witness for C2 (amended) at the reachable empty-hunks conflict state
and at a concrete dirty buffer. -/
theorem C2_amended_witness :
    hunksSorted
        (ConflictState.hunks { external := "ax".data, hunks := ([] : List (ConflictHunk Text)) }) ∧
      (on_external_change (insert_char (EditorBuffer.new "a".data) 'x')
            (insert_char (EditorBuffer.new "a".data) 'x').text).conflict =
        some { external := (insert_char (EditorBuffer.new "a".data) 'x').text, hunks := [] } := by
  constructor
  · refine C2_conflict_invariant_amended.1
      (on_external_change (insert_char (EditorBuffer.new "a".data) 'x') "ax".data)
      (Reachable.next (BufferOp.external "ax".data)
        (Reachable.next (BufferOp.insert 'x') (Reachable.init "a".data))) _ ?_
    have hb : insert_char (EditorBuffer.new "a".data) 'x' =
        { text := "ax".data, cursor := 2, dirty := true, conflict := none,
          undo_stack := [{ text := "a".data, cursor := 1, dirty := false, conflict := none }],
          redo_stack := [] } := by decide
    rw [hb]
    simp only [on_external_change, if_true]
    rw [compute_conflict_hunks_self]
  · exact C2_conflict_invariant_amended.2 (insert_char (EditorBuffer.new "a".data) 'x') rfl

/-- C9: on success `save_to_path` writes the buffer text verbatim and
clears dirty and conflict, leaving text/cursor/history untouched; on I/O
failure it reports the error and leaves the whole buffer state and the
file exactly as before, and the buffer can immediately be saved again. -/
theorem C9_save_to_path :
    ∀ (b : EditorBuffer) (disk : Text),
      ((save_to_path b true disk).1 = true ∧
        (save_to_path b true disk).2.1 = b.text ∧
        (save_to_path b true disk).2.2.dirty = false ∧
        (save_to_path b true disk).2.2.conflict = none ∧
        (save_to_path b true disk).2.2.text = b.text ∧
        (save_to_path b true disk).2.2.cursor = b.cursor ∧
        (save_to_path b true disk).2.2.undo_stack = b.undo_stack ∧
        (save_to_path b true disk).2.2.redo_stack = b.redo_stack) ∧
      ((save_to_path b false disk).1 = false ∧
        (save_to_path b false disk).2.1 = disk ∧
        (save_to_path b false disk).2.2 = b) ∧
      (save_to_path (save_to_path b false disk).2.2 true disk).2.1 = b.text := by
  intro b disk
  exact ⟨⟨rfl, rfl, rfl, rfl, rfl, rfl, rfl, rfl⟩, ⟨rfl, rfl, rfl⟩, rfl⟩

/-- C10: none of the reconciliation or conflict-resolution operations
touches the undo or redo stack, so an undo performed right after one of
them restores the snapshot that was on top of the undo stack before it. -/
theorem C10_reconciliation_frame :
    ∀ (b : EditorBuffer) (ext : Text) (i : Nat) (ok : Bool) (disk : Text),
      (on_external_change b ext).undo_stack = b.undo_stack ∧
        (on_external_change b ext).redo_stack = b.redo_stack ∧
        (keep_local b).undo_stack = b.undo_stack ∧
        (keep_local b).redo_stack = b.redo_stack ∧
        (reload_external b).undo_stack = b.undo_stack ∧
        (reload_external b).redo_stack = b.redo_stack ∧
        (merge_external b).undo_stack = b.undo_stack ∧
        (merge_external b).redo_stack = b.redo_stack ∧
        (apply_external_hunk b i).2.undo_stack = b.undo_stack ∧
        (apply_external_hunk b i).2.redo_stack = b.redo_stack ∧
        (save_to_path b ok disk).2.2.undo_stack = b.undo_stack ∧
        (save_to_path b ok disk).2.2.redo_stack = b.redo_stack ∧
        ∀ s rest, b.undo_stack = s :: rest →
          (undo (on_external_change b ext)).1 = true ∧
            (undo (on_external_change b ext)).2.text = s.text ∧
            (undo (on_external_change b ext)).2.cursor = s.cursor ∧
            (undo (on_external_change b ext)).2.dirty = s.dirty ∧
            (undo (on_external_change b ext)).2.conflict = s.conflict := by
  intro b ext i ok disk
  have hoc : (on_external_change b ext).undo_stack = b.undo_stack := by
    simp only [on_external_change]
    split
    · rfl
    · rfl
  refine ⟨hoc, ?_, rfl, rfl, ?_, ?_, ?_, ?_, ?_, ?_, ?_, ?_, ?_⟩
  · simp only [on_external_change]
    split
    · rfl
    · rfl
  · simp only [reload_external]
    split
    · rfl
    · rfl
  · simp only [reload_external]
    split
    · rfl
    · rfl
  · simp only [merge_external]
    split
    · rfl
    · rfl
  · simp only [merge_external]
    split
    · rfl
    · rfl
  · simp only [apply_external_hunk]
    split
    · rfl
    · split
      · rfl
      · rfl
  · simp only [apply_external_hunk]
    split
    · rfl
    · split
      · rfl
      · rfl
  · simp only [save_to_path]
    split
    · rfl
    · rfl
  · simp only [save_to_path]
    split
    · rfl
    · rfl
  · intro s rest hst
    have hu : (on_external_change b ext).undo_stack = s :: rest := by rw [hoc, hst]
    simp [undo, hu]

/-- Witness for C10 at a buffer with one history entry. -/
theorem C10_frame_witness :
    (on_external_change (insert_char (EditorBuffer.new "a".data) 'x') "zz".data).undo_stack =
        (insert_char (EditorBuffer.new "a".data) 'x').undo_stack ∧
      (undo (on_external_change (insert_char (EditorBuffer.new "a".data) 'x')
            "zz".data)).2.text = "a".data ∧
      (undo (on_external_change (insert_char (EditorBuffer.new "a".data) 'x')
            "zz".data)).2.cursor = 1 := by
  have h := C10_reconciliation_frame (insert_char (EditorBuffer.new "a".data) 'x') "zz".data 0
    false []
  have hlast := h.2.2.2.2.2.2.2.2.2.2.2.2
    { text := "a".data, cursor := 1, dirty := false, conflict := none } [] (by decide)
  exact ⟨h.1, hlast.2.1, hlast.2.2.1⟩

/-! ## Undo-stack helpers (C4, C7) -/

theorem push_history_cons (stack : List HistoryState) (s : HistoryState) :
    push_history stack s = s :: stack.take (MAX_HISTORY_ENTRIES - 1) := rfl

theorem push_history_of_lt {stack : List HistoryState} (s : HistoryState)
    (h : stack.length < MAX_HISTORY_ENTRIES) : push_history stack s = s :: stack := by
  unfold push_history
  exact List.take_of_length_le (by simpa using h)

theorem undo_of_cons (b : EditorBuffer) (s : HistoryState) (rest : List HistoryState)
    (h : b.undo_stack = s :: rest) :
    (undo b).1 = true ∧ (undo b).2.text = s.text ∧ (undo b).2.cursor = s.cursor ∧
      (undo b).2.dirty = s.dirty ∧ (undo b).2.conflict = s.conflict ∧
      (undo b).2.undo_stack = rest ∧
      (undo b).2.redo_stack = push_history b.redo_stack (snapshot b) := by
  simp [undo, h]

theorem redo_of_cons (b : EditorBuffer) (s : HistoryState) (rest : List HistoryState)
    (h : b.redo_stack = s :: rest) :
    (redo b).1 = true ∧ (redo b).2.text = s.text ∧ (redo b).2.cursor = s.cursor ∧
      (redo b).2.dirty = s.dirty ∧ (redo b).2.conflict = s.conflict ∧
      (redo b).2.redo_stack = rest ∧
      (redo b).2.undo_stack = push_history b.undo_stack (snapshot b) := by
  simp [redo, h]

/-- C7: for a non-empty needle present in the text, `replace_all` returns
the non-overlapping occurrence count of the original text, rewrites the
text with every occurrence replaced, parks the cursor at the end of the
new document and marks it dirty; one single undo brings text and cursor
back; an empty or absent needle returns 0 and leaves the buffer
untouched. -/
theorem C7_replace_all :
    ∀ (b : EditorBuffer) (n r : Text),
      (n = [] → replace_all b n r = (0, b)) ∧
        (containsSub b.text n = false → replace_all b n r = (0, b)) ∧
        (n ≠ [] → containsSub b.text n = true →
          (replace_all b n r).1 = countOccs b.text n ∧
            (replace_all b n r).2.text = replaceAllStr b.text n r ∧
            (replace_all b n r).2.cursor = byteLen (replaceAllStr b.text n r) ∧
            (replace_all b n r).2.dirty = true ∧
            (undo (replace_all b n r).2).1 = true ∧
            (undo (replace_all b n r).2).2.text = b.text ∧
            (undo (replace_all b n r).2).2.cursor = b.cursor) := by
  intro b n r
  refine ⟨?_, ?_, ?_⟩
  · intro h
    simp [replace_all, h]
  · intro h
    by_cases hn : n = []
    · simp [replace_all, hn]
    · simp [replace_all, hn, h]
  · intro hn hc
    have hstack : (replace_all b n r).2.undo_stack =
        snapshot b :: b.undo_stack.take (MAX_HISTORY_ENTRIES - 1) := by
      simp [replace_all, hn, hc, push_history_cons]
    have hu := undo_of_cons _ _ _ hstack
    refine ⟨?_, ?_, ?_, ?_, hu.1, ?_, ?_⟩
    · simp [replace_all, hn, hc]
    · simp [replace_all, hn, hc]
    · simp [replace_all, hn, hc]
    · simp [replace_all, hn, hc]
    · exact hu.2.1
    · exact hu.2.2.1

/-- Witness for C7 on `"ab ab ab"`, replacing `"ab"` by `"xy"`. -/
theorem C7_replace_all_witness :
    (replace_all (EditorBuffer.new "ab ab ab".data) "ab".data "xy".data).1 =
        countOccs "ab ab ab".data "ab".data ∧
      (replace_all (EditorBuffer.new "ab ab ab".data) "ab".data "xy".data).2.text =
        replaceAllStr "ab ab ab".data "ab".data "xy".data ∧
      (undo (replace_all (EditorBuffer.new "ab ab ab".data) "ab".data "xy".data).2).2.text =
        "ab ab ab".data := by
  have h := (C7_replace_all (EditorBuffer.new "ab ab ab".data) "ab".data "xy".data).2.2
    (by decide) (by decide)
  exact ⟨h.1, h.2.1, h.2.2.2.2.2.1⟩

theorem effective_stack (b : EditorBuffer) (op : EditOp) (he : Effective b op) :
    (applyEdit b op).undo_stack = push_history b.undo_stack (snapshot b) ∧
      (applyEdit b op).redo_stack = [] := by
  cases op with
  | ins c => exact ⟨rfl, rfl⟩
  | nl => exact ⟨rfl, rfl⟩
  | bsp =>
    have hb : b.cursor ≠ 0 := he
    simp [applyEdit, backspace, hb]
  | rnext n r =>
    have h1 : (replace_next b n r).1 = true := he
    by_cases hn : n = []
    · simp [replace_next, hn] at h1
    · cases hm : findMatchFrom b.text (findStart b) n with
      | none => simp [replace_next, hn, hm] at h1
      | some m => simp [applyEdit, replace_next, hn, hm]
  | rall n r =>
    have h1 : 0 < (replace_all b n r).1 := he
    by_cases hn : n = []
    · simp [replace_all, hn] at h1
    · by_cases hc : containsSub b.text n
      · simp [applyEdit, replace_all, hn, hc]
      · simp [replace_all, hn, hc] at h1

/-- Core restoration: N effective edits followed by N undos restore text,
cursor, dirty flag, conflict record and undo stack, provided the history
capacity is never exceeded. -/
theorem edits_undo_restore :
    ∀ (ops : List EditOp) (b : EditorBuffer), EffectiveSeq b ops →
      b.undo_stack.length + ops.length ≤ MAX_HISTORY_ENTRIES →
      SameCore (undoN ops.length (applyEdits b ops)) b := by
  intro ops
  induction ops with
  | nil => intro b _ _; exact ⟨rfl, rfl, rfl, rfl, rfl⟩
  | cons op ops ih =>
    intro b hseq hcap
    obtain ⟨he, hes⟩ := hseq
    have hst := effective_stack b op he
    have hlt : b.undo_stack.length < MAX_HISTORY_ENTRIES := by
      simp only [List.length_cons] at hcap
      omega
    have hpush : (applyEdit b op).undo_stack = snapshot b :: b.undo_stack := by
      rw [hst.1, push_history_of_lt _ hlt]
    have hcap' : (applyEdit b op).undo_stack.length + ops.length ≤ MAX_HISTORY_ENTRIES := by
      rw [hpush]
      simp only [List.length_cons] at hcap ⊢
      omega
    obtain ⟨h1, h2, h3, h4, h5⟩ := ih (applyEdit b op) hes hcap'
    have hu : (undoN ops.length (applyEdits (applyEdit b op) ops)).undo_stack =
        snapshot b :: b.undo_stack := by rw [h5, hpush]
    have hres := undo_of_cons _ _ _ hu
    exact ⟨hres.2.1, hres.2.2.1, hres.2.2.2.1, hres.2.2.2.2.1, hres.2.2.2.2.2.1⟩

/-- C4: N effective edits followed by N undos restore text and cursor
exactly while the history capacity (128) is not exceeded; a redo right
after an undo restores the pre-undo state; and an effective edit empties
the redo stack, after which redo reports `false`. -/
theorem C4_undo_redo_discipline :
    (∀ (b : EditorBuffer) (ops : List EditOp), EffectiveSeq b ops →
        b.undo_stack.length + ops.length ≤ MAX_HISTORY_ENTRIES →
        (undoN ops.length (applyEdits b ops)).text = b.text ∧
          (undoN ops.length (applyEdits b ops)).cursor = b.cursor) ∧
      (∀ b : EditorBuffer, b.undo_stack ≠ [] →
        (undo b).1 = true ∧ (redo (undo b).2).1 = true ∧
          (redo (undo b).2).2.text = b.text ∧ (redo (undo b).2).2.cursor = b.cursor ∧
          (redo (undo b).2).2.dirty = b.dirty ∧ (redo (undo b).2).2.conflict = b.conflict) ∧
      ∀ (b : EditorBuffer) (op : EditOp), Effective b op →
        (applyEdit b op).redo_stack = [] ∧ (redo (applyEdit b op)).1 = false := by
  refine ⟨?_, ?_, ?_⟩
  · intro b ops hseq hcap
    have h := edits_undo_restore ops b hseq hcap
    exact ⟨h.1, h.2.1⟩
  · intro b hne
    cases hstack : b.undo_stack with
    | nil => exact absurd hstack hne
    | cons s rest =>
      have hu := undo_of_cons b s rest hstack
      have hredo : (undo b).2.redo_stack =
          snapshot b :: b.redo_stack.take (MAX_HISTORY_ENTRIES - 1) := by
        rw [hu.2.2.2.2.2.2, push_history_cons]
      have hr := redo_of_cons _ _ _ hredo
      exact ⟨hu.1, hr.1, hr.2.1, hr.2.2.1, hr.2.2.2.1, hr.2.2.2.2.1⟩
  · intro b op he
    have h := (effective_stack b op he).2
    refine ⟨h, ?_⟩
    simp [redo, h]

/-- Witness for C4: one insert on `"ab"`, one undo; redo after undo; redo
after a fresh edit. -/
theorem C4_witness :
    ((undoN 1 (applyEdits (EditorBuffer.new "ab".data) [EditOp.ins 'c'])).text = "ab".data ∧
        (undoN 1 (applyEdits (EditorBuffer.new "ab".data) [EditOp.ins 'c'])).cursor = 2) ∧
      (redo (undo (insert_char (EditorBuffer.new "ab".data) 'c')).2).2.text = "abc".data ∧
      (redo (applyEdit (EditorBuffer.new "ab".data) (EditOp.ins 'c'))).1 = false := by
  have h1 := C4_undo_redo_discipline.1 (EditorBuffer.new "ab".data) [EditOp.ins 'c']
    ⟨trivial, trivial⟩ (by decide)
  have h2 := C4_undo_redo_discipline.2.1 (insert_char (EditorBuffer.new "ab".data) 'c')
    (by decide)
  have h3 := C4_undo_redo_discipline.2.2 (EditorBuffer.new "ab".data) (EditOp.ins 'c') trivial
  exact ⟨⟨h1.1, h1.2⟩, h2.2.2.1, h3.2⟩

/-! ## Renderer width bound (C6) and code-block behavior (C5) -/

theorem wrap_line_short (input : Text) (w : Nat) (h : input.length ≤ w) :
    wrap_line input w = [input] := by
  unfold wrap_line
  exact if_pos h

theorem wrapAux_bound (w : Nat) (hw : 0 < w) :
    ∀ (input buf : Text), buf.length < w → ∀ l ∈ wrapAux input w buf, l.length ≤ w := by
  intro input
  induction input with
  | nil =>
    intro buf hbuf l hl
    unfold wrapAux at hl
    split at hl
    · simp at hl
    · simp at hl
      subst hl
      omega
  | cons c cs ih =>
    intro buf hbuf l hl
    unfold wrapAux at hl
    split at hl
    next heq =>
      simp only [List.mem_cons] at hl
      rcases hl with rfl | hl
      · omega
      · exact ih [] (by simpa using hw) l hl
    next hne =>
      refine ih (buf ++ [c]) ?_ l hl
      have : (buf ++ [c]).length = buf.length + 1 := by simp
      omega

theorem wrap_line_bound (input : Text) (w : Nat) (hw : 0 < w) :
    ∀ l ∈ wrap_line input w, l.length ≤ w := by
  intro l hl
  unfold wrap_line at hl
  split at hl
  next h => simp at hl; subst hl; exact h
  next h => exact wrapAux_bound w hw input [] (by simpa using hw) l hl

theorem append_text_frame (r : Renderer) (s : Text) :
    (append_text r s).width = r.width ∧ (append_text r s).lines = r.lines := by
  unfold append_text
  split
  · exact ⟨rfl, rfl⟩
  · exact ⟨rfl, rfl⟩
  · split
    · exact ⟨rfl, rfl⟩
    · split
      · exact ⟨rfl, rfl⟩
      · exact ⟨rfl, rfl⟩

theorem flush_current_bound (W : Nat) (r : Renderer) (hW : r.width = W) (hpos : 0 < W)
    (h : ∀ l ∈ r.lines, l.length ≤ W) :
    (flush_current r).width = W ∧ ∀ l ∈ (flush_current r).lines, l.length ≤ W := by
  unfold flush_current
  split
  · exact ⟨hW, h⟩
  · refine ⟨hW, ?_⟩
    intro l hl
    simp only [List.mem_append] at hl
    rcases hl with hl | hl
    · exact h l hl
    · rw [hW] at hl
      exact wrap_line_bound _ _ hpos l hl

theorem push_line_bound (W : Nat) (r : Renderer) (line : Text) (hW : r.width = W)
    (hpos : 0 < W) (h : ∀ l ∈ r.lines, l.length ≤ W) :
    (push_line r line).width = W ∧ ∀ l ∈ (push_line r line).lines, l.length ≤ W := by
  obtain ⟨hw, hf⟩ := flush_current_bound W r hW hpos h
  unfold push_line
  refine ⟨hw, ?_⟩
  intro l hl
  simp only [List.mem_append] at hl
  rcases hl with hl | hl
  · exact hf l hl
  · rw [hw] at hl
    exact wrap_line_bound _ _ hpos l hl

theorem push_code_text_bound (W : Nat) (r : Renderer) (s : Text) (hW : r.width = W)
    (hpos : 0 < W) (h : ∀ l ∈ r.lines, l.length ≤ W) :
    (push_code_text r s).width = W ∧
      ∀ l ∈ (push_code_text r s).lines, l.length ≤ W := by
  unfold push_code_text
  generalize codeChunks s = chunks
  induction chunks generalizing r with
  | nil => exact ⟨hW, h⟩
  | cons c cs ih =>
    simp only [List.foldl_cons]
    obtain ⟨hw, hl⟩ := push_line_bound W r (quotePref r ++ c) hW hpos h
    exact ih (push_line r (quotePref r ++ c)) hw hl

theorem mdStep_bound (W : Nat) (r : Renderer) (ev : MdEvent) (hW : r.width = W)
    (hpos : 0 < W) (h : ∀ l ∈ r.lines, l.length ≤ W) :
    (mdStep r ev).width = W ∧ ∀ l ∈ (mdStep r ev).lines, l.length ≤ W := by
  have hflush := flush_current_bound W r hW hpos h
  cases ev with
  | Start tag =>
    cases tag with
    | Heading level =>
      obtain ⟨hw, hl⟩ := hflush
      obtain ⟨hw2, hl2⟩ := append_text_frame (flush_current r) (headingPref level)
      simp only [mdStep]
      rw [hw2, hl2]
      exact ⟨hw, hl⟩
    | BlockQuote => exact hflush
    | ListTag start => exact hflush
    | Item =>
      simp only [mdStep]
      split
      · exact hflush
      · exact hflush
    | CodeBlock fenced lang =>
      simp only [mdStep]
      exact push_line_bound W { flush_current r with in_code_block := true }
        (quotePref r ++ "```".data ++ (if fenced then trimText lang else []))
        hflush.1 hpos hflush.2
    | Table => exact hflush
    | TableHead => exact hflush
    | TableRow => exact hflush
    | TableCell => exact ⟨hW, h⟩
    | Link dest => exact ⟨hW, h⟩
    | Image dest => exact ⟨hW, h⟩
    | Paragraph => exact ⟨hW, h⟩
    | OtherTag => exact ⟨hW, h⟩
  | End tag =>
    cases tag with
    | Heading level => exact hflush
    | Paragraph => exact hflush
    | BlockQuote => exact hflush
    | ListTag start => exact hflush
    | Item => exact hflush
    | CodeBlock fenced lang =>
      simp only [mdStep]
      exact push_line_bound W { flush_current r with in_code_block := false }
        (quotePref r ++ "```".data) hflush.1 hpos hflush.2
    | TableHead =>
      simp only [mdStep]
      split
      · obtain ⟨hw1, hl1⟩ :=
          push_line_bound W r (quotePref r ++ rowText r.table_row) hW hpos h
        exact push_line_bound W (push_line r (quotePref r ++ rowText r.table_row))
          (quotePref r ++ rowText (List.replicate r.table_row.length "-".data)) hw1 hpos hl1
      · exact ⟨hW, h⟩
    | TableRow => exact push_line_bound W r (quotePref r ++ rowText r.table_row) hW hpos h
    | TableCell => exact ⟨hW, h⟩
    | Link dest =>
      simp only [mdStep]
      split
      · obtain ⟨hw2, hl2⟩ := append_text_frame _ _
        rw [hw2, hl2]
        exact ⟨hW, h⟩
      · exact ⟨hW, h⟩
      · exact ⟨hW, h⟩
    | Image dest =>
      simp only [mdStep]
      split
      · obtain ⟨hw2, hl2⟩ := append_text_frame _ _
        rw [hw2, hl2]
        exact ⟨hW, h⟩
      · exact ⟨hW, h⟩
      · exact ⟨hW, h⟩
    | Table => exact ⟨hW, h⟩
    | OtherTag => exact ⟨hW, h⟩
  | TextEv s =>
    simp only [mdStep]
    split
    · exact push_code_text_bound W r s hW hpos h
    · obtain ⟨hw2, hl2⟩ := append_text_frame r s
      rw [hw2, hl2]
      exact ⟨hW, h⟩
  | Code s =>
    obtain ⟨hw2, hl2⟩ := append_text_frame r _
    simp only [mdStep]
    rw [hw2, hl2]
    exact ⟨hW, h⟩
  | SoftBreak =>
    simp only [mdStep]
    split
    · obtain ⟨hw2, hl2⟩ := append_text_frame r _
      rw [hw2, hl2]
      exact ⟨hW, h⟩
    · exact hflush
  | HardBreak => exact hflush
  | TaskListMarker done =>
    obtain ⟨hw2, hl2⟩ := append_text_frame r _
    simp only [mdStep]
    rw [hw2, hl2]
    exact ⟨hW, h⟩
  | Rule =>
    simp only [mdStep]
    exact push_line_bound W (flush_current r) (quotePref r ++ "---".data) hflush.1 hpos
      hflush.2
  | Html s =>
    obtain ⟨hw2, hl2⟩ := append_text_frame r _
    simp only [mdStep]
    rw [hw2, hl2]
    exact ⟨hW, h⟩
  | FootnoteReference name =>
    obtain ⟨hw2, hl2⟩ := append_text_frame r _
    simp only [mdStep]
    rw [hw2, hl2]
    exact ⟨hW, h⟩
  | MathEv s =>
    obtain ⟨hw2, hl2⟩ := append_text_frame r _
    simp only [mdStep]
    rw [hw2, hl2]
    exact ⟨hW, h⟩

theorem foldl_mdStep_bound (W : Nat) (events : List MdEvent) (r : Renderer)
    (hW : r.width = W) (hpos : 0 < W) (h : ∀ l ∈ r.lines, l.length ≤ W) :
    (events.foldl mdStep r).width = W ∧
      ∀ l ∈ (events.foldl mdStep r).lines, l.length ≤ W := by
  induction events generalizing r with
  | nil => exact ⟨hW, h⟩
  | cons ev evs ih =>
    simp only [List.foldl_cons]
    obtain ⟨hw, hl⟩ := mdStep_bound W r ev hW hpos h
    exact ih (mdStep r ev) hw hl

/-- C6: every line produced by `render_preview_lines` — inside or outside
a fenced code block — has at most `max width 8` characters, and the spec's
example `render("abcdefghij", 4)` returns exactly `["abcdefgh", "ij"]`.
(The claim restricts the bound to lines outside code blocks; the code in
fact wraps all lines, so the bound holds universally and in particular
there.) -/
theorem C6_width_bound :
    (∀ (events : List MdEvent) (w : Nat),
        ∀ l ∈ render_preview_lines events w, l.length ≤ max w 8) ∧
      render_preview_lines eventsPlainParagraph 4 = ["abcdefgh".data, "ij".data] := by
  constructor
  · intro events w l hl
    have hpos : 0 < max w 8 := by omega
    obtain ⟨hw, hlines⟩ := foldl_mdStep_bound (max w 8) events (Renderer.new (max w 8)) rfl
      hpos (by simp [Renderer.new])
    have hfl := flush_current_bound (max w 8) (events.foldl mdStep (Renderer.new (max w 8)))
      hw hpos hlines
    unfold render_preview_lines at hl
    split at hl
    · simp at hl
      subst hl
      simp
    · exact hfl.2 l hl
  · decide

/-- Witness for C6 at the long-paragraph example: the first produced line
meets the bound. -/
theorem C6_width_bound_witness :
    "abcdefgh".data ∈ render_preview_lines eventsPlainParagraph 4 ∧
      ("abcdefgh".data : Text).length ≤ max 4 8 := by
  refine ⟨?_, C6_width_bound.1 eventsPlainParagraph 4 "abcdefgh".data ?_⟩ <;>
    · rw [C6_width_bound.2]
      decide

theorem flush_current_of_empty (r : Renderer) (hc : r.current = []) : flush_current r = r := by
  unfold flush_current
  rw [if_pos hc]

/-- At quote depth 0 with an empty accumulator, `push_code_text` appends
exactly the width-chunked code chunks and changes nothing else. -/
theorem push_code_text_lines (r : Renderer) (s : Text)
    (hc : r.current = []) (hd : r.blockquote_depth = 0) :
    push_code_text r s =
      { r with lines := r.lines ++ (codeChunks s).flatMap fun c => wrap_line c r.width } := by
  unfold push_code_text
  generalize codeChunks s = chunks
  induction chunks generalizing r with
  | nil => simp
  | cons c cs ih =>
    have hq : quotePref r = [] := by simp [quotePref, hd]
    have hpl : push_line r (quotePref r ++ c) =
        { r with lines := r.lines ++ wrap_line c r.width } := by
      unfold push_line
      rw [flush_current_of_empty r hc, hq]
      simp
    simp only [List.foldl_cons, hpl]
    rw [ih { r with lines := r.lines ++ wrap_line c r.width } hc hd]
    simp

theorem mdStep_codeStart (r : Renderer) (lang : Text) (hc : r.current = [])
    (hd : r.blockquote_depth = 0) (hlen : 3 + (trimText lang).length ≤ r.width) :
    mdStep r (MdEvent.Start (MdTag.CodeBlock true lang)) =
      { r with
        in_code_block := true
        lines := r.lines ++ ["```".data ++ trimText lang] } := by
  have hq : quotePref r = [] := by simp [quotePref, hd]
  have hwrap : wrap_line ('`' :: '`' :: '`' :: trimText lang) r.width =
      ['`' :: '`' :: '`' :: trimText lang] :=
    wrap_line_short _ _ (by simp only [List.length_cons]; omega)
  simp only [mdStep, push_line]
  rw [flush_current_of_empty r hc]
  rw [flush_current_of_empty { r with in_code_block := true } hc]
  simp [hq, hwrap]

theorem mdStep_codeText (r : Renderer) (s : Text) (hcode : r.in_code_block = true)
    (hc : r.current = []) (hd : r.blockquote_depth = 0) :
    mdStep r (MdEvent.TextEv s) =
      { r with lines := r.lines ++ (codeChunks s).flatMap fun c => wrap_line c r.width } := by
  simp only [mdStep]
  rw [if_pos hcode]
  exact push_code_text_lines r s hc hd

theorem mdStep_codeEnd (r : Renderer) (lang : Text) (hc : r.current = [])
    (hd : r.blockquote_depth = 0) (hwid : 3 ≤ r.width) :
    mdStep r (MdEvent.End (MdTag.CodeBlock true lang)) =
      { r with
        in_code_block := false
        lines := r.lines ++ ["```".data] } := by
  have hq : quotePref r = [] := by simp [quotePref, hd]
  have hwrap : wrap_line ['`', '`', '`'] r.width = [['`', '`', '`']] :=
    wrap_line_short _ _ (by simp only [List.length_cons, List.length_nil]; omega)
  simp only [mdStep, push_line]
  rw [flush_current_of_empty r hc]
  rw [flush_current_of_empty { r with in_code_block := false } hc]
  simp [hq, hwrap]

/-- C5 (counterexample): the fenced code block whose sole interior line is
`"abcdefghij"` rendered at width 4 chunks that line at `max 4 8 = 8`
characters; the interior line does not appear verbatim in the output. -/
theorem C5_counterexample :
    render_preview_lines eventsLongCodeLine 4 =
        ["```".data, "abcdefgh".data, "ij".data, "```".data] ∧
      "abcdefghij".data ∉ render_preview_lines eventsLongCodeLine 4 := by decide

/-- C5 (amended): interior lines of a fenced code block are never
re-flowed — each `split('\n')` chunk goes through the hard character
chunker `wrap_line` only — but a chunk longer than `max w 8` is therefore
split at exactly that many characters; when every interior line fits the
width, all of them appear verbatim between the two fences. -/
theorem C5_code_block_amended :
    ∀ (lang s : Text) (w : Nat),
      (trimText lang).length + 3 ≤ max w 8 →
      (render_preview_lines
          [MdEvent.Start (MdTag.CodeBlock true lang), MdEvent.TextEv s,
            MdEvent.End (MdTag.CodeBlock true lang)] w =
        ("```".data ++ trimText lang) ::
          ((codeChunks s).flatMap fun c => wrap_line c (max w 8)) ++ ["```".data]) ∧
      ((∀ c ∈ codeChunks s, c.length ≤ max w 8) →
        render_preview_lines
            [MdEvent.Start (MdTag.CodeBlock true lang), MdEvent.TextEv s,
              MdEvent.End (MdTag.CodeBlock true lang)] w =
          ("```".data ++ trimText lang) :: codeChunks s ++ ["```".data]) := by
  intro lang s w hfence
  have hmain : render_preview_lines
      [MdEvent.Start (MdTag.CodeBlock true lang), MdEvent.TextEv s,
        MdEvent.End (MdTag.CodeBlock true lang)] w =
      ("```".data ++ trimText lang) ::
        ((codeChunks s).flatMap fun c => wrap_line c (max w 8)) ++ ["```".data] := by
    simp only [render_preview_lines, List.foldl_cons, List.foldl_nil]
    rw [mdStep_codeStart (Renderer.new (max w 8)) lang rfl rfl
      (by simp only [Renderer.new]; omega)]
    rw [mdStep_codeText _ s rfl rfl rfl]
    rw [mdStep_codeEnd _ lang rfl rfl (by simp only [Renderer.new]; omega)]
    rw [flush_current_of_empty _ rfl]
    simp [Renderer.new]
  refine ⟨hmain, ?_⟩
  intro hshort
  rw [hmain]
  have hbind : ∀ cs : List Text, (∀ c ∈ cs, c.length ≤ max w 8) →
      (cs.flatMap fun c => wrap_line c (max w 8)) = cs := by
    intro cs
    induction cs with
    | nil => intro _; rfl
    | cons c cs ih =>
      intro hcs
      simp only [List.flatMap_cons]
      rw [wrap_line_short c _ (hcs c (List.mem_cons_self _ _)),
        ih fun c' hc' => hcs c' (List.mem_cons_of_mem _ hc')]
      rfl
  rw [hbind _ hshort]

/-- Witness for C5 (amended) on a short code block at width 80. -/
theorem C5_amended_witness :
    render_preview_lines
        [MdEvent.Start (MdTag.CodeBlock true []), MdEvent.TextEv "ab\n".data,
          MdEvent.End (MdTag.CodeBlock true [])] 80 =
      ["```".data, "ab".data, "```".data] := by
  have h := (C5_code_block_amended [] "ab\n".data 80 (by decide)).2 (by decide)
  rw [h]
  decide

/-! ## UTF-8 byte-offset arithmetic (towards C3 and C8) -/

theorem byteLen_cons (c : Char) (t : Text) : byteLen (c :: t) = c.utf8Size + byteLen t := by
  simp [byteLen]

theorem byteLen_append (a b : Text) : byteLen (a ++ b) = byteLen a + byteLen b := by
  simp [byteLen]

theorem byteLen_take_le (t : Text) (k : Nat) : byteLen (t.take k) ≤ byteLen t := by
  conv_rhs => rw [← List.take_append_drop k t]
  rw [byteLen_append]
  omega

theorem byteLen_pos_of_ne_nil {t : Text} (h : t ≠ []) : 0 < byteLen t := by
  cases t with
  | nil => exact absurd rfl h
  | cons c cs =>
    rw [byteLen_cons]
    have := Char.utf8Size_pos c
    omega

theorem byteLen_take_add (t : Text) (j d : Nat) :
    byteLen (t.take (j + d)) = byteLen (t.take j) + byteLen ((t.drop j).take d) := by
  rw [List.take_add, byteLen_append]

theorem byteLen_take_mono {t : Text} {j k : Nat} (hjk : j ≤ k) :
    byteLen (t.take j) ≤ byteLen (t.take k) := by
  obtain ⟨d, rfl⟩ := Nat.exists_eq_add_of_le hjk
  rw [byteLen_take_add]
  omega

theorem byteLen_take_strict {t : Text} {j k : Nat} (hjk : j < k) (hk : k ≤ t.length) :
    byteLen (t.take j) < byteLen (t.take k) := by
  obtain ⟨d, rfl⟩ := Nat.exists_eq_add_of_le (Nat.succ_le_of_lt hjk)
  have hne : (t.drop j).take (1 + d) ≠ [] := by
    have hlen : 0 < (t.drop j).length := by
      rw [List.length_drop]
      omega
    cases hdr : t.drop j with
    | nil => rw [hdr] at hlen; simp at hlen
    | cons c cs => simp [List.take_cons_succ, Nat.add_comm 1 d]
  have := byteLen_pos_of_ne_nil hne
  rw [show j + 1 + d = j + (1 + d) by omega, byteLen_take_add]
  omega

theorem byteLen_take_inj {t : Text} {j k : Nat} (hj : j ≤ t.length) (hk : k ≤ t.length)
    (h : byteLen (t.take j) = byteLen (t.take k)) : j = k := by
  rcases Nat.lt_trichotomy j k with hlt | heq | hgt
  · have := byteLen_take_strict hlt hk
    omega
  · exact heq
  · have := byteLen_take_strict hgt hj
    omega

theorem isBnd_iff (t : Text) (i : Nat) :
    is_char_boundary t i = true ↔ ∃ k, k ≤ t.length ∧ byteLen (t.take k) = i := by
  unfold is_char_boundary
  rw [List.any_eq_true]
  constructor
  · rintro ⟨k, hk, he⟩
    rw [List.mem_range] at hk
    exact ⟨k, by omega, by simpa using he⟩
  · rintro ⟨k, hk, he⟩
    exact ⟨k, List.mem_range.mpr (by omega), by simpa using he⟩

theorem isBnd_zero (t : Text) : IsBnd t 0 :=
  (isBnd_iff t 0).mpr ⟨0, Nat.zero_le _, rfl⟩

theorem isBnd_byteLen (t : Text) : IsBnd t (byteLen t) :=
  (isBnd_iff t (byteLen t)).mpr ⟨t.length, Nat.le_refl _, by rw [List.take_length]⟩

theorem isBnd_take (t : Text) (k : Nat) (hk : k ≤ t.length) : IsBnd t (byteLen (t.take k)) :=
  (isBnd_iff t _).mpr ⟨k, hk, rfl⟩

theorem isBnd_le {t : Text} {i : Nat} (h : IsBnd t i) : i ≤ byteLen t := by
  obtain ⟨k, _, rfl⟩ := (isBnd_iff t i).mp h
  exact byteLen_take_le t k

theorem takeBytes_byteLen_take (t : Text) : ∀ k, takeBytes t (byteLen (t.take k)) = t.take k := by
  induction t with
  | nil => intro k; simp [takeBytes]
  | cons c cs ih =>
    intro k
    cases k with
    | zero =>
      simp only [List.take_zero, byteLen, List.map_nil, List.sum_nil]
      unfold takeBytes
      rw [if_neg (by have := Char.utf8Size_pos c; omega)]
    | succ k =>
      simp only [List.take_succ_cons, byteLen_cons]
      unfold takeBytes
      rw [if_pos (by omega)]
      rw [show c.utf8Size + byteLen (cs.take k) - c.utf8Size = byteLen (cs.take k) by omega]
      rw [ih k]

theorem dropBytes_byteLen_take (t : Text) : ∀ k, dropBytes t (byteLen (t.take k)) = t.drop k := by
  induction t with
  | nil => intro k; simp [dropBytes]
  | cons c cs ih =>
    intro k
    cases k with
    | zero =>
      simp only [List.take_zero, byteLen, List.map_nil, List.sum_nil]
      unfold dropBytes
      rw [if_pos rfl]
      simp
    | succ k =>
      simp only [List.take_succ_cons, byteLen_cons]
      unfold dropBytes
      have hpos := Char.utf8Size_pos c
      have hne : ¬ c.utf8Size + byteLen (cs.take k) = 0 := by omega
      rw [if_neg hne, if_pos (by omega)]
      rw [show c.utf8Size + byteLen (cs.take k) - c.utf8Size = byteLen (cs.take k) by omega]
      rw [ih k]
      simp

theorem prevBoundaryAux_isBnd (t : Text) : ∀ j, IsBnd t (prevBoundaryAux t j) := by
  intro j
  induction j with
  | zero => exact isBnd_zero t
  | succ j ih =>
    unfold prevBoundaryAux
    split
    next h => exact h
    next h => exact ih

theorem prev_char_boundary_isBnd (t : Text) (i : Nat) : IsBnd t (prev_char_boundary t i) :=
  prevBoundaryAux_isBnd t (i - 1)

theorem nextBoundaryAux_isBnd (t : Text) : ∀ j, j ≤ byteLen t → IsBnd t (nextBoundaryAux t j)
  | j, hj => by
    unfold nextBoundaryAux
    split
    next hlt =>
      split
      next hb => exact hb
      next hb => exact nextBoundaryAux_isBnd t (j + 1) (by omega)
    next hge =>
      have : j = byteLen t := by omega
      rw [this]
      exact isBnd_byteLen t
termination_by j _ => byteLen t - j

theorem next_char_boundary_isBnd (t : Text) (i : Nat) : IsBnd t (next_char_boundary t i) :=
  nextBoundaryAux_isBnd t _ (Nat.min_le_right _ _)

/-- Walking down from inside the gap between boundaries `byteLen (t.take k)`
and `byteLen (t.take (k + 1))` lands exactly on the lower boundary. -/
theorem prevBoundaryAux_in_gap (t : Text) (k : Nat) (hk : k + 1 ≤ t.length) :
    ∀ j, byteLen (t.take k) ≤ j → j < byteLen (t.take (k + 1)) →
      prevBoundaryAux t j = byteLen (t.take k) := by
  intro j
  induction j with
  | zero =>
    intro h1 _
    unfold prevBoundaryAux
    omega
  | succ j ih =>
    intro h1 h2
    unfold prevBoundaryAux
    split
    next hb =>
      obtain ⟨m, hm, hbm⟩ := (isBnd_iff t (j + 1)).mp hb
      have hmk : m ≤ k := by
        by_contra hc
        push_neg at hc
        have := byteLen_take_mono (t := t) (show k + 1 ≤ m by omega)
        omega
      have := byteLen_take_mono (t := t) hmk
      omega
    next hb =>
      have hne : j + 1 ≠ byteLen (t.take k) := by
        intro he
        exact hb (by rw [he]; exact isBnd_take t k (by omega))
      exact ih (by omega) (by omega)

/-- `prev_char_boundary` at the boundary after character `k` is the
boundary before it. -/
theorem prev_char_boundary_at (t : Text) (k : Nat) (hk : k + 1 ≤ t.length) :
    prev_char_boundary t (byteLen (t.take (k + 1))) = byteLen (t.take k) := by
  unfold prev_char_boundary
  have hstrict := byteLen_take_strict (t := t) (show k < k + 1 by omega) hk
  exact prevBoundaryAux_in_gap t k hk _ (by omega) (by omega)

/-- Walking up from inside the gap lands exactly on the upper boundary. -/
theorem nextBoundaryAux_in_gap (t : Text) (k : Nat) (hk : k + 1 ≤ t.length) :
    ∀ j, byteLen (t.take k) < j → j ≤ byteLen (t.take (k + 1)) →
      nextBoundaryAux t j = byteLen (t.take (k + 1))
  | j, h1, h2 => by
    unfold nextBoundaryAux
    split
    next hlt =>
      split
      next hb =>
        obtain ⟨m, hm, hbm⟩ := (isBnd_iff t j).mp hb
        have hmk : k + 1 ≤ m := by
          by_contra hc
          push_neg at hc
          have := byteLen_take_mono (t := t) (show m ≤ k by omega)
          omega
        have := byteLen_take_mono (t := t) hmk
        omega
      next hb =>
        have hne : j ≠ byteLen (t.take (k + 1)) := by
          intro he
          exact hb (by rw [he]; exact isBnd_take t (k + 1) hk)
        exact nextBoundaryAux_in_gap t k hk (j + 1) (by omega) (by omega)
    next hge =>
      have hble := byteLen_take_le t (k + 1)
      omega
termination_by j _ _ => byteLen t - j

/-- `next_char_boundary` at the boundary before character `k` is the
boundary after it. -/
theorem next_char_boundary_at (t : Text) (k : Nat) (hk : k < t.length) :
    next_char_boundary t (byteLen (t.take k)) = byteLen (t.take (k + 1)) := by
  unfold next_char_boundary
  have hstrict := byteLen_take_strict (t := t) (show k < k + 1 by omega) hk
  have hle : byteLen (t.take (k + 1)) ≤ byteLen t := byteLen_take_le t (k + 1)
  rw [show min (byteLen (t.take k) + 1) (byteLen t) = byteLen (t.take k) + 1 by omega]
  exact nextBoundaryAux_in_gap t k hk (byteLen (t.take k) + 1) (by omega) (by omega)

/-! ## Search-primitive characterization (towards C3 and C8) -/

theorem charFind_le (t n : Text) : ∀ k, charFind t n = some k → k ≤ t.length := by
  induction t with
  | nil =>
    intro k h
    unfold charFind at h
    split at h
    · simp at h
      omega
    · simp at h
  | cons c t' ih =>
    intro k h
    unfold charFind at h
    split at h
    · simp at h
      omega
    · simp only [Option.map_eq_some'] at h
      obtain ⟨k', hk', rfl⟩ := h
      have := ih k' hk'
      simp
      omega

theorem charFind_sound (t n : Text) : ∀ k, charFind t n = some k →
    n.isPrefixOf (t.drop k) = true := by
  induction t with
  | nil =>
    intro k h
    unfold charFind at h
    split at h
    next hp =>
      simp at h
      subst h
      exact hp
    · simp at h
  | cons c t' ih =>
    intro k h
    unfold charFind at h
    split at h
    next hp =>
      simp at h
      subst h
      exact hp
    · simp only [Option.map_eq_some'] at h
      obtain ⟨k', hk', rfl⟩ := h
      simpa using ih k' hk'

theorem charFind_min (t n : Text) : ∀ k, charFind t n = some k →
    ∀ j, j < k → ¬ n.isPrefixOf (t.drop j) = true := by
  induction t with
  | nil =>
    intro k h j hj
    unfold charFind at h
    split at h
    · simp at h
      omega
    · simp at h
  | cons c t' ih =>
    intro k h j hj
    unfold charFind at h
    split at h
    · simp at h
      omega
    next hp =>
      simp only [Option.map_eq_some'] at h
      obtain ⟨k', hk', rfl⟩ := h
      cases j with
      | zero => simpa using hp
      | succ j => simpa using ih k' hk' j (by omega)

theorem charFind_eq_none_iff (t n : Text) :
    charFind t n = none ↔ ∀ j, ¬ n.isPrefixOf (t.drop j) = true := by
  induction t with
  | nil =>
    unfold charFind
    constructor
    · intro h j
      split at h
      · simp at h
      next hp => simpa using hp
    · intro h
      split
      next hp => exact absurd (by simpa using hp) (h 0)
      · rfl
  | cons c t' ih =>
    unfold charFind
    constructor
    · intro h j
      split at h
      · simp at h
      next hp =>
        simp only [Option.map_eq_none'] at h
        cases j with
        | zero => simpa using hp
        | succ j => simpa using (ih.mp h) j
    · intro h
      split
      next hp => exact absurd (by simpa using hp) (h 0)
      · simp only [Option.map_eq_none']
        exact ih.mpr fun j => by simpa using h (j + 1)

theorem charRFind_le (t n : Text) : ∀ k, charRFind t n = some k → k ≤ t.length := by
  induction t with
  | nil =>
    intro k h
    unfold charRFind at h
    split at h
    · simp at h
      omega
    · simp at h
  | cons c t' ih =>
    intro k h
    unfold charRFind at h
    split at h
    next k' hk' =>
      simp at h
      have := ih k' hk'
      simp
      omega
    next hk' =>
      split at h
      · simp at h
        omega
      · simp at h

theorem charRFind_sound (t n : Text) : ∀ k, charRFind t n = some k →
    n.isPrefixOf (t.drop k) = true := by
  induction t with
  | nil =>
    intro k h
    unfold charRFind at h
    split at h
    next hp =>
      simp at h
      subst h
      exact hp
    · simp at h
  | cons c t' ih =>
    intro k h
    unfold charRFind at h
    split at h
    next k' hk' =>
      simp at h
      subst h
      simpa using ih k' hk'
    next hk' =>
      split at h
      next hp =>
        simp at h
        subst h
        exact hp
      · simp at h

theorem charRFind_eq_none_aux (t' n : Text) :
    charRFind t' n = none ↔ ∀ j, j ≤ t'.length → ¬ n.isPrefixOf (t'.drop j) = true := by
  induction t' with
  | nil =>
    unfold charRFind
    constructor
    · intro h j hj
      split at h
      · simp at h
      next hp =>
        have hj0 : j = 0 := by simpa using hj
        subst hj0
        simpa using hp
    · intro h
      split
      next hp => exact absurd (by simpa using hp) (h 0 (by simp))
      · rfl
  | cons c t' ih =>
    unfold charRFind
    constructor
    · intro h j hj
      split at h
      · simp at h
      next hnone =>
        split at h
        · simp at h
        next hp =>
          cases j with
          | zero => simpa using hp
          | succ j => simpa using (ih.mp hnone) j (by simpa using hj)
    · intro h
      split
      next k' hk' =>
        have hs := charRFind_sound t' n k' hk'
        have hl := charRFind_le t' n k' hk'
        exact absurd (by simpa using hs) (h (k' + 1) (by simpa using hl))
      next hnone =>
        split
        next hp => exact absurd (by simpa using hp) (h 0 (by simp))
        · rfl

theorem charRFind_max (t n : Text) : ∀ k, charRFind t n = some k →
    ∀ j, k < j → j ≤ t.length → ¬ n.isPrefixOf (t.drop j) = true := by
  induction t with
  | nil =>
    intro k h j hj hjl
    unfold charRFind at h
    split at h
    · simp at h hjl
      omega
    · simp at h
  | cons c t' ih =>
    intro k h j hj hjl
    unfold charRFind at h
    split at h
    next k' hk' =>
      simp at h
      subst h
      cases j with
      | zero => omega
      | succ j => simpa using ih k' hk' j (by omega) (by simpa using hjl)
    next hnone =>
      split at h
      · simp at h
        subst h
        cases j with
        | zero => omega
        | succ j =>
          simpa using (charRFind_eq_none_aux t' n).mp hnone j (by simpa using hjl)
      · simp at h


theorem isPrefixOf_eq_take {n l : Text} (h : n.isPrefixOf l = true) : l.take n.length = n := by
  rw [List.isPrefixOf_iff_prefix] at h
  obtain ⟨rest, rfl⟩ := h
  exact List.take_left n rest

theorem isBnd_append_left (a b : Text) : IsBnd (a ++ b) (byteLen a) :=
  (isBnd_iff _ _).mpr ⟨a.length, by simp, by rw [List.take_left]⟩

theorem take_succ_of_drop (t : Text) :
    ∀ (k : Nat) (c : Char) (cs' : Text), t.drop k = c :: cs' →
      t.take (k + 1) = t.take k ++ [c] := by
  induction t with
  | nil => intro k c cs' h; simp at h
  | cons d ds ih =>
    intro k c cs' h
    cases k with
    | zero =>
      simp only [List.drop_zero] at h
      cases h
      simp
    | succ k =>
      simp only [List.drop_succ_cons] at h
      simp only [List.take_succ_cons, ih k c cs' h, List.cons_append]

theorem lt_length_of_drop_cons {t : Text} {k : Nat} {c : Char} {cs' : Text}
    (h : t.drop k = c :: cs') : k < t.length := by
  by_contra hc
  push_neg at hc
  rw [List.drop_eq_nil_of_le hc] at h
  simp at h

theorem findStart_isBnd (b : EditorBuffer) : IsBnd b.text (findStart b) := by
  unfold findStart
  split
  · exact isBnd_zero b.text
  · exact next_char_boundary_isBnd b.text b.cursor

theorem findPrevStart_isBnd (b : EditorBuffer) : IsBnd b.text (findPrevStart b) := by
  unfold findPrevStart
  split
  · exact isBnd_byteLen b.text
  · exact prev_char_boundary_isBnd b.text b.cursor

theorem findMatchFrom_isBnd (t n : Text) (s : Nat) (hs : IsBnd t s) (m : Nat)
    (h : findMatchFrom t s n = some m) : IsBnd t m := by
  obtain ⟨j, hj, rfl⟩ := (isBnd_iff t s).mp hs
  unfold findMatchFrom at h
  rw [dropBytes_byteLen_take, takeBytes_byteLen_take] at h
  split at h
  next k hk =>
    simp only [Option.some.injEq] at h
    subst h
    have hkle := charFind_le _ _ _ hk
    rw [List.length_drop] at hkle
    refine (isBnd_iff t _).mpr ⟨j + k, by omega, ?_⟩
    rw [byteLen_take_add]
  next =>
    simp only [Option.map_eq_some'] at h
    obtain ⟨k, hk, rfl⟩ := h
    have hkle := charFind_le _ _ _ hk
    rw [List.length_take] at hkle
    rw [List.take_take]
    exact isBnd_take t _ (by omega)

theorem rfindMatchFrom_isBnd (t n : Text) (s : Nat) (hs : IsBnd t s) (m : Nat)
    (h : rfindMatchFrom t s n = some m) : IsBnd t m := by
  obtain ⟨j, hj, rfl⟩ := (isBnd_iff t s).mp hs
  unfold rfindMatchFrom at h
  rw [dropBytes_byteLen_take, takeBytes_byteLen_take] at h
  split at h
  next k hk =>
    simp only [Option.some.injEq] at h
    subst h
    have hkle := charRFind_le _ _ _ hk
    rw [List.length_take] at hkle
    rw [List.take_take]
    exact isBnd_take t _ (by omega)
  next =>
    split at h
    next k hk =>
      simp only [Option.some.injEq] at h
      subst h
      have hkle := charRFind_le _ _ _ hk
      rw [List.length_drop] at hkle
      refine (isBnd_iff t _).mpr ⟨j + k, by omega, ?_⟩
      rw [byteLen_take_add]
    next => simp at h

theorem idxAtAux_isBnd (t : Text) :
    ∀ (cs : Text) (k tl tc line col : Nat), cs = t.drop k → k ≤ t.length →
      IsBnd t (idxAtAux cs tl tc (byteLen (t.take k)) line col (byteLen t)) := by
  intro cs
  induction cs with
  | nil =>
    intro k tl tc line col _ _
    unfold idxAtAux
    exact isBnd_byteLen t
  | cons c cs' ih =>
    intro k tl tc line col hcs hk
    have hklt : k < t.length := lt_length_of_drop_cons hcs.symm
    have hsucc : byteLen (t.take k) + c.utf8Size = byteLen (t.take (k + 1)) := by
      rw [take_succ_of_drop t k c cs' hcs.symm, byteLen_append]
      simp [byteLen]
    have hcs' : cs' = t.drop (k + 1) := (drop_succ_of_drop t k c cs' hcs.symm).symm
    unfold idxAtAux
    split
    · exact isBnd_take t k hk
    · split
      · split
        · exact isBnd_take t k hk
        · rw [hsucc]
          exact ih (k + 1) tl tc _ _ hcs' (by omega)
      · rw [hsucc]
        exact ih (k + 1) tl tc _ _ hcs' (by omega)

theorem index_at_line_col_isBnd (t : Text) (tl tc : Nat) :
    IsBnd t (index_at_line_col t tl tc) := by
  unfold index_at_line_col
  have h := idxAtAux_isBnd t t 0 tl tc 0 0 (List.drop_zero t).symm (Nat.zero_le _)
  simpa using h

/-! ## Cursor-validity invariant over reachable buffer states (C3) -/

theorem insert_isBnd {t : Text} {cur : Nat} (h : IsBnd t cur) (c : Char) :
    IsBnd (takeBytes t cur ++ c :: dropBytes t cur) (cur + c.utf8Size) := by
  obtain ⟨k, hk, rfl⟩ := (isBnd_iff t _).mp h
  rw [takeBytes_byteLen_take, dropBytes_byteLen_take]
  rw [show t.take k ++ c :: t.drop k = (t.take k ++ [c]) ++ t.drop k by simp]
  rw [show byteLen (t.take k) + c.utf8Size = byteLen (t.take k ++ [c]) by
    rw [byteLen_append]; simp [byteLen]]
  exact isBnd_append_left _ _

theorem backspace_isBnd (t : Text) (cur : Nat) :
    IsBnd (takeBytes t (prev_char_boundary t cur) ++ dropBytes t cur)
      (prev_char_boundary t cur) := by
  obtain ⟨k, hk, heq⟩ := (isBnd_iff t _).mp (prev_char_boundary_isBnd t cur)
  rw [← heq, takeBytes_byteLen_take]
  exact isBnd_append_left _ _

theorem replace_text_isBnd (t : Text) {m : Nat} (hm : IsBnd t m) (r rest : Text) :
    IsBnd (takeBytes t m ++ r ++ rest) (m + byteLen r) := by
  obtain ⟨k, hk, rfl⟩ := (isBnd_iff t _).mp hm
  rw [takeBytes_byteLen_take, ← byteLen_append]
  exact isBnd_append_left _ _

theorem cursorInv_edit {b : EditorBuffer} (hinv : CursorInv b) (t' : Text) (cur : Nat)
    (hcur : IsBnd t' cur) :
    CursorInv
      { text := t', cursor := cur, dirty := true, conflict := b.conflict,
        undo_stack := push_history b.undo_stack (snapshot b), redo_stack := [] } := by
  obtain ⟨hc, hu, hr⟩ := hinv
  refine ⟨hcur, ?_, by intro s hs; simp at hs⟩
  intro s hs
  rcases mem_push_history hs with rfl | hs
  · exact hc
  · exact hu s hs

/-- Every public operation keeps the cursor on a character boundary, live
and snapshotted. -/
theorem cursorInv_step {b : EditorBuffer} (op : BufferOp) (hinv : CursorInv b) :
    CursorInv (step b op) := by
  obtain ⟨hc, hu, hr⟩ := hinv
  cases op with
  | insert c => exact cursorInv_edit ⟨hc, hu, hr⟩ _ _ (insert_isBnd hc c)
  | newline => exact cursorInv_edit ⟨hc, hu, hr⟩ _ _ (insert_isBnd hc '\n')
  | back =>
    simp only [step, backspace]
    split
    · exact ⟨hc, hu, hr⟩
    · exact cursorInv_edit ⟨hc, hu, hr⟩ _ _ (backspace_isBnd b.text b.cursor)
  | left =>
    simp only [step, move_left]
    split
    · exact ⟨hc, hu, hr⟩
    · exact ⟨prev_char_boundary_isBnd b.text b.cursor, hu, hr⟩
  | right =>
    simp only [step, move_right]
    split
    · exact ⟨hc, hu, hr⟩
    · exact ⟨next_char_boundary_isBnd b.text b.cursor, hu, hr⟩
  | up =>
    simp only [step, move_up]
    split
    · exact ⟨hc, hu, hr⟩
    · exact ⟨index_at_line_col_isBnd b.text _ _, hu, hr⟩
  | down =>
    simp only [step, move_down]
    split
    · exact ⟨hc, hu, hr⟩
    · exact ⟨index_at_line_col_isBnd b.text _ _, hu, hr⟩
  | undoOp =>
    simp only [step]
    cases hstack : b.undo_stack with
    | nil => simpa [undo, hstack] using ⟨hc, hu, hr⟩
    | cons s rest =>
      simp only [undo, hstack]
      refine ⟨hu s (by rw [hstack]; exact List.mem_cons_self _ _), ?_, ?_⟩
      · intro s' hs'
        exact hu s' (by rw [hstack]; exact List.mem_cons_of_mem _ hs')
      · intro s' hs'
        rcases mem_push_history hs' with rfl | hs'
        · exact hc
        · exact hr s' hs'
  | redoOp =>
    simp only [step]
    cases hstack : b.redo_stack with
    | nil => simpa [redo, hstack] using ⟨hc, hu, hr⟩
    | cons s rest =>
      simp only [redo, hstack]
      refine ⟨hr s (by rw [hstack]; exact List.mem_cons_self _ _), ?_, ?_⟩
      · intro s' hs'
        rcases mem_push_history hs' with rfl | hs'
        · exact hc
        · exact hu s' hs'
      · intro s' hs'
        exact hr s' (by rw [hstack]; exact List.mem_cons_of_mem _ hs')
  | findN n =>
    simp only [step, find_next]
    split
    · exact ⟨hc, hu, hr⟩
    · split
      next m hm =>
        exact ⟨findMatchFrom_isBnd b.text n (findStart b) (findStart_isBnd b) m hm, hu, hr⟩
      · exact ⟨hc, hu, hr⟩
  | findP n =>
    simp only [step, find_prev]
    split
    · exact ⟨hc, hu, hr⟩
    · split
      next m hm =>
        exact ⟨rfindMatchFrom_isBnd b.text n (findPrevStart b) (findPrevStart_isBnd b) m hm,
          hu, hr⟩
      · exact ⟨hc, hu, hr⟩
  | replN n r =>
    simp only [step, replace_next]
    split
    · exact ⟨hc, hu, hr⟩
    · split
      · exact ⟨hc, hu, hr⟩
      next m hm =>
        exact cursorInv_edit ⟨hc, hu, hr⟩ _ _
          (replace_text_isBnd b.text
            (findMatchFrom_isBnd b.text n (findStart b) (findStart_isBnd b) m hm) r _)
  | replA n r =>
    simp only [step, replace_all]
    split
    · exact ⟨hc, hu, hr⟩
    · split
      · exact ⟨hc, hu, hr⟩
      · exact cursorInv_edit ⟨hc, hu, hr⟩ _ _ (isBnd_byteLen _)
  | goto ln =>
    simp only [step, goto_line]
    split
    · exact ⟨hc, hu, hr⟩
    · split
      · exact ⟨hc, hu, hr⟩
      · exact ⟨index_at_line_col_isBnd b.text _ _, hu, hr⟩
  | external ext =>
    simp only [step, on_external_change]
    split
    · exact ⟨hc, hu, hr⟩
    · exact ⟨isBnd_byteLen _, hu, hr⟩
  | keep => exact ⟨hc, hu, hr⟩
  | reload =>
    simp only [step, reload_external]
    split
    · exact ⟨hc, hu, hr⟩
    · exact ⟨isBnd_byteLen _, hu, hr⟩
  | merge =>
    simp only [step, merge_external]
    split
    · exact ⟨hc, hu, hr⟩
    · exact ⟨isBnd_byteLen _, hu, hr⟩
  | applyHunk i =>
    simp only [step, apply_external_hunk]
    split
    · exact ⟨hc, hu, hr⟩
    · split
      · exact ⟨hc, hu, hr⟩
      · exact ⟨index_at_line_col_isBnd _ _ _, hu, hr⟩
  | save ok =>
    simp only [step, save_to_path]
    split
    · exact ⟨hc, hu, hr⟩
    · exact ⟨hc, hu, hr⟩

theorem reachable_cursorInv : ∀ b, Reachable b → CursorInv b := by
  intro b h
  induction h with
  | init t =>
    refine ⟨isBnd_byteLen t, ?_, ?_⟩ <;> intro s hs <;> simp [EditorBuffer.new] at hs
  | next op hr ih => exact cursorInv_step op ih

/-- C3: in every buffer state reachable through the public operations, the
cursor is a byte offset lying on a UTF-8 character boundary of the current
text, and in particular `0 ≤ cursor ≤ len(text)`. -/
theorem C3_cursor_validity :
    ∀ b, Reachable b →
      is_char_boundary b.text b.cursor = true ∧ b.cursor ≤ byteLen b.text := by
  intro b hb
  have h := (reachable_cursorInv b hb).1
  exact ⟨h, isBnd_le h⟩

/-- Witness for C3 after a left-move over a two-byte character. -/
theorem C3_cursor_validity_witness :
    is_char_boundary (step (EditorBuffer.new "aé".data) BufferOp.left).text
        (step (EditorBuffer.new "aé".data) BufferOp.left).cursor = true ∧
      (step (EditorBuffer.new "aé".data) BufferOp.left).cursor ≤
        byteLen (step (EditorBuffer.new "aé".data) BufferOp.left).text :=
  C3_cursor_validity _ (Reachable.next BufferOp.left (Reachable.init "aé".data))

/-! ## Occurrence lists and positioned search results (C8) -/

theorem mem_occList {t n : Text} {q : Nat} :
    q ∈ occList t n ↔ q ≤ t.length ∧ n.isPrefixOf (t.drop q) = true := by
  unfold occList
  rw [List.mem_filter, List.mem_range]
  constructor
  · rintro ⟨h1, h2⟩
    exact ⟨by omega, h2⟩
  · rintro ⟨h1, h2⟩
    exact ⟨by omega, h2⟩

theorem occList_pairwise (t n : Text) : (occList t n).Pairwise (· < ·) :=
  List.Pairwise.sublist (List.filter_sublist _) (List.pairwise_lt_range _)

theorem occList_sorted (t n : Text) : (occList t n).Sorted (· < ·) :=
  occList_pairwise t n

theorem occ_le_length {t n : Text} {q : Nat} (hn : n ≠ [])
    (h : n.isPrefixOf (t.drop q) = true) : q + n.length ≤ t.length := by
  rw [List.isPrefixOf_iff_prefix] at h
  have hlen := h.length_le
  rw [List.length_drop] at hlen
  have hnp : 0 < n.length := List.length_pos.mpr hn
  by_cases hq : q ≤ t.length
  · omega
  · exfalso
    push_neg at hq
    rw [List.drop_eq_nil_of_le (by omega)] at h
    have := h.length_le
    simp at this
    omega

theorem not_isPrefixOf_nil {n : Text} (hn : n ≠ []) : ¬ n.isPrefixOf ([] : Text) = true := by
  intro h
  rw [List.isPrefixOf_iff_prefix] at h
  have h2 := h.length_le
  simp at h2
  exact hn h2

/-- `charFind` on the suffix `t.drop s` finds exactly the first occurrence
at or after `s`. -/
theorem charFind_drop_eq (t n : Text) (s q : Nat)
    (hq : n.isPrefixOf (t.drop q) = true) (hsq : s ≤ q)
    (hmin : ∀ p, s ≤ p → p < q → ¬ n.isPrefixOf (t.drop p) = true) :
    charFind (t.drop s) n = some (q - s) := by
  cases hfind : charFind (t.drop s) n with
  | none =>
    exfalso
    have h := (charFind_eq_none_iff _ _).mp hfind (q - s)
    rw [List.drop_drop, show s + (q - s) = q by omega] at h
    exact h hq
  | some k =>
    have hsound := charFind_sound _ _ _ hfind
    rw [List.drop_drop] at hsound
    have hmin' := charFind_min _ _ _ hfind
    rcases Nat.lt_trichotomy (s + k) q with hlt | heq | hgt
    · exact absurd hsound (hmin (s + k) (by omega) hlt)
    · rw [show q - s = k by omega]
    · exfalso
      have h := hmin' (q - s) (by omega)
      rw [List.drop_drop, show s + (q - s) = q by omega] at h
      exact h hq

theorem charFind_drop_eq_none (t n : Text) (s : Nat)
    (hno : ∀ p, s ≤ p → ¬ n.isPrefixOf (t.drop p) = true) :
    charFind (t.drop s) n = none := by
  rw [charFind_eq_none_iff]
  intro j
  rw [List.drop_drop]
  exact hno (s + j) (by omega)

/-- Occurrence of the needle inside a truncated text. -/
theorem isPrefixOf_take_iff {t n : Text} (hn : n ≠ []) (m q : Nat) :
    n.isPrefixOf ((t.take m).drop q) = true ↔
      n.isPrefixOf (t.drop q) = true ∧ q + n.length ≤ m := by
  rw [List.drop_take, List.isPrefixOf_iff_prefix, List.isPrefixOf_iff_prefix,
    List.prefix_take_iff]
  have hnp : 0 < n.length := List.length_pos.mpr hn
  constructor
  · rintro ⟨h1, h2⟩
    exact ⟨h1, by omega⟩
  · rintro ⟨h1, h2⟩
    exact ⟨h1, by omega⟩

/-- `charFind` on the truncated text finds exactly the first occurrence
that fits within the truncation. -/
theorem charFind_take_eq (t n : Text) (hn : n ≠ []) (m q : Nat)
    (hq : n.isPrefixOf (t.drop q) = true) (hqm : q + n.length ≤ m)
    (hmin : ∀ p, p < q → ¬ n.isPrefixOf (t.drop p) = true) :
    charFind (t.take m) n = some q := by
  cases hfind : charFind (t.take m) n with
  | none =>
    exfalso
    exact (charFind_eq_none_iff _ _).mp hfind q ((isPrefixOf_take_iff hn m q).mpr ⟨hq, hqm⟩)
  | some k =>
    have hsound := (isPrefixOf_take_iff hn m k).mp (charFind_sound _ _ _ hfind)
    have hmin' := charFind_min _ _ _ hfind
    rcases Nat.lt_trichotomy k q with hlt | heq | hgt
    · exact absurd hsound.1 (hmin k hlt)
    · rw [heq]
    · exact absurd ((isPrefixOf_take_iff hn m q).mpr ⟨hq, hqm⟩) (hmin' q hgt)

/-- `charRFind` on the suffix `t.drop s` finds exactly the last occurrence. -/
theorem charRFind_drop_eq (t n : Text) (hn : n ≠ []) (s q : Nat)
    (hq : n.isPrefixOf (t.drop q) = true) (hsq : s ≤ q)
    (hmax : ∀ p, q < p → ¬ n.isPrefixOf (t.drop p) = true) :
    charRFind (t.drop s) n = some (q - s) := by
  have hql := occ_le_length hn hq
  cases hfind : charRFind (t.drop s) n with
  | none =>
    exfalso
    have h := (charRFind_eq_none_aux _ _).mp hfind (q - s) (by rw [List.length_drop]; omega)
    rw [List.drop_drop, show s + (q - s) = q by omega] at h
    exact h hq
  | some k =>
    have hsound := charRFind_sound _ _ _ hfind
    rw [List.drop_drop] at hsound
    have hmax' := charRFind_max _ _ _ hfind
    rcases Nat.lt_trichotomy (s + k) q with hlt | heq | hgt
    · exfalso
      have h := hmax' (q - s) (by omega) (by rw [List.length_drop]; omega)
      rw [List.drop_drop, show s + (q - s) = q by omega] at h
      exact h hq
    · rw [show q - s = k by omega]
    · exact absurd hsound (hmax (s + k) (by omega))

theorem charRFind_take_eq (t n : Text) (hn : n ≠ []) (m q : Nat)
    (hq : n.isPrefixOf (t.drop q) = true) (hqm : q + n.length ≤ m)
    (hmax : ∀ p, q < p → p + n.length ≤ m → ¬ n.isPrefixOf (t.drop p) = true) :
    charRFind (t.take m) n = some q := by
  have hql := occ_le_length hn hq
  cases hfind : charRFind (t.take m) n with
  | none =>
    exfalso
    refine (charRFind_eq_none_aux _ _).mp hfind q ?_
      ((isPrefixOf_take_iff hn m q).mpr ⟨hq, hqm⟩)
    rw [List.length_take]
    omega
  | some k =>
    have hsound := (isPrefixOf_take_iff hn m k).mp (charRFind_sound _ _ _ hfind)
    have hmax' := charRFind_max _ _ _ hfind
    rcases Nat.lt_trichotomy k q with hlt | heq | hgt
    · exfalso
      refine hmax' q hlt ?_ ((isPrefixOf_take_iff hn m q).mpr ⟨hq, hqm⟩)
      rw [List.length_take]
      omega
    · rw [heq]
    · exact absurd hsound.1 (hmax k hgt hsound.2)

theorem charRFind_take_eq_none (t n : Text) (hn : n ≠ []) (m : Nat)
    (hno : ∀ p, p + n.length ≤ m → ¬ n.isPrefixOf (t.drop p) = true) :
    charRFind (t.take m) n = none := by
  rw [charRFind_eq_none_aux]
  intro j _ hj
  have h := (isPrefixOf_take_iff hn m j).mp hj
  exact hno j h.2 h.1

/-- `find_next` from a cursor parked at an occurrence start moves to the
next occurrence when one follows. -/
theorem find_next_to_next (b : EditorBuffer) (n : Text) (hn : n ≠ []) (o o' : Nat)
    (ho : n.isPrefixOf (b.text.drop o) = true)
    (ho' : n.isPrefixOf (b.text.drop o') = true)
    (hlt : o < o')
    (hbetween : ∀ p, o < p → p < o' → ¬ n.isPrefixOf (b.text.drop p) = true)
    (hcur : b.cursor = byteLen (b.text.take o)) :
    find_next b n = (true, { b with cursor := byteLen (b.text.take o') }) := by
  have hnp : 0 < n.length := List.length_pos.mpr hn
  have holen := occ_le_length hn ho
  have holt : o < b.text.length := by omega
  have hblt : byteLen (b.text.take o) < byteLen b.text := by
    have h1 := byteLen_take_strict (t := b.text) holt (Nat.le_refl _)
    rw [List.take_length] at h1
    exact h1
  have hstart : findStart b = byteLen (b.text.take (o + 1)) := by
    unfold findStart
    rw [hcur, if_neg (by omega)]
    exact next_char_boundary_at b.text o holt
  have hfm : findMatchFrom b.text (findStart b) n = some (byteLen (b.text.take o')) := by
    rw [hstart]
    unfold findMatchFrom
    rw [dropBytes_byteLen_take]
    rw [charFind_drop_eq b.text n (o + 1) o' ho' (by omega)
      (fun p hp1 hp2 => hbetween p (by omega) hp2)]
    simp only [Option.some.injEq]
    rw [← byteLen_take_add]
    congr 2
    omega
  unfold find_next
  rw [if_neg hn, hfm]

/-- `find_next` from the last occurrence wraps around to the first one. -/
theorem find_next_wraps (b : EditorBuffer) (n : Text) (hn : n ≠ []) (oL oF : Nat)
    (hoL : n.isPrefixOf (b.text.drop oL) = true)
    (hoF : n.isPrefixOf (b.text.drop oF) = true)
    (hmax : ∀ p, oL < p → ¬ n.isPrefixOf (b.text.drop p) = true)
    (hminF : ∀ p, p < oF → ¬ n.isPrefixOf (b.text.drop p) = true)
    (hfit : oF + n.length ≤ oL + 1)
    (hcur : b.cursor = byteLen (b.text.take oL)) :
    find_next b n = (true, { b with cursor := byteLen (b.text.take oF) }) := by
  have hnp : 0 < n.length := List.length_pos.mpr hn
  have holen := occ_le_length hn hoL
  have holt : oL < b.text.length := by omega
  have hblt : byteLen (b.text.take oL) < byteLen b.text := by
    have h1 := byteLen_take_strict (t := b.text) holt (Nat.le_refl _)
    rw [List.take_length] at h1
    exact h1
  have hstart : findStart b = byteLen (b.text.take (oL + 1)) := by
    unfold findStart
    rw [hcur, if_neg (by omega)]
    exact next_char_boundary_at b.text oL holt
  have hfm : findMatchFrom b.text (findStart b) n = some (byteLen (b.text.take oF)) := by
    rw [hstart]
    unfold findMatchFrom
    rw [dropBytes_byteLen_take, takeBytes_byteLen_take]
    rw [charFind_drop_eq_none b.text n (oL + 1) (fun p hp => hmax p (by omega))]
    rw [charFind_take_eq b.text n hn (oL + 1) oF hoF hfit hminF]
    simp only [Option.map_some']
    rw [List.take_take, Nat.min_eq_left (by omega)]
  unfold find_next
  rw [if_neg hn, hfm]

/-- `find_prev` from a cursor parked at an occurrence start moves back to
the previous occurrence when the two are separated by at least one
character. -/
theorem find_prev_to_prev (b : EditorBuffer) (n : Text) (hn : n ≠ []) (o o' : Nat)
    (ho : n.isPrefixOf (b.text.drop o) = true)
    (hgap : o + n.length < o') (ho'le : o' ≤ b.text.length)
    (hbetween : ∀ p, o < p → p < o' → ¬ n.isPrefixOf (b.text.drop p) = true)
    (hcur : b.cursor = byteLen (b.text.take o')) :
    find_prev b n = (true, { b with cursor := byteLen (b.text.take o) }) := by
  have hnp : 0 < n.length := List.length_pos.mpr hn
  have ho'pos : 0 < o' := by omega
  have hcurpos : 0 < b.cursor := by
    rw [hcur]
    have h1 := byteLen_take_strict (t := b.text) ho'pos ho'le
    have h0 : byteLen (b.text.take 0) = 0 := by simp [byteLen]
    omega
  have hstart : findPrevStart b = byteLen (b.text.take (o' - 1)) := by
    unfold findPrevStart
    rw [if_neg (by omega)]
    have h := prev_char_boundary_at b.text (o' - 1) (by omega)
    rw [show o' - 1 + 1 = o' by omega] at h
    rw [hcur]
    exact h
  have hfm : rfindMatchFrom b.text (findPrevStart b) n = some (byteLen (b.text.take o)) := by
    rw [hstart]
    unfold rfindMatchFrom
    rw [takeBytes_byteLen_take]
    rw [charRFind_take_eq b.text n hn (o' - 1) o ho (by omega)
      (fun p hp1 hp2 => hbetween p hp1 (by omega))]
    simp only [Option.some.injEq]
    rw [List.take_take, Nat.min_eq_left (by omega)]
  unfold find_prev
  rw [if_neg hn, hfm]

/-- `find_prev` from the first occurrence wraps around to the last one. -/
theorem find_prev_wraps (b : EditorBuffer) (n : Text) (hn : n ≠ []) (oF oL : Nat)
    (hoF : n.isPrefixOf (b.text.drop oF) = true)
    (hoL : n.isPrefixOf (b.text.drop oL) = true)
    (hminF : ∀ p, p < oF → ¬ n.isPrefixOf (b.text.drop p) = true)
    (hmaxL : ∀ p, oL < p → ¬ n.isPrefixOf (b.text.drop p) = true)
    (hFle : oF ≤ oL)
    (hcur : b.cursor = byteLen (b.text.take oF)) :
    find_prev b n = (true, { b with cursor := byteLen (b.text.take oL) }) := by
  have hnp : 0 < n.length := List.length_pos.mpr hn
  have hoLlen := occ_le_length hn hoL
  have hrfull : charRFind b.text n = some oL := by
    have h := charRFind_drop_eq b.text n hn 0 oL hoL (Nat.zero_le _) hmaxL
    simpa using h
  by_cases hF0 : oF = 0
  · have hcur0 : b.cursor = 0 := by
      rw [hcur, hF0]
      simp [byteLen]
    have hstart : findPrevStart b = byteLen b.text := by
      unfold findPrevStart
      rw [if_pos hcur0]
    have hfm : rfindMatchFrom b.text (findPrevStart b) n =
        some (byteLen (b.text.take oL)) := by
      rw [hstart, show byteLen b.text = byteLen (b.text.take b.text.length) by
        rw [List.take_length]]
      unfold rfindMatchFrom
      rw [takeBytes_byteLen_take, List.take_length, hrfull]
    unfold find_prev
    rw [if_neg hn, hfm]
  · have hoFlen := occ_le_length hn hoF
    have hcurpos : 0 < b.cursor := by
      rw [hcur]
      have h1 := byteLen_take_strict (t := b.text) (show 0 < oF by omega) (by omega)
      have h0 : byteLen (b.text.take 0) = 0 := by simp [byteLen]
      omega
    have hstart : findPrevStart b = byteLen (b.text.take (oF - 1)) := by
      unfold findPrevStart
      rw [if_neg (by omega)]
      have h := prev_char_boundary_at b.text (oF - 1) (by omega)
      rw [show oF - 1 + 1 = oF by omega] at h
      rw [hcur]
      exact h
    have hfm : rfindMatchFrom b.text (findPrevStart b) n =
        some (byteLen (b.text.take oL)) := by
      rw [hstart]
      unfold rfindMatchFrom
      rw [takeBytes_byteLen_take, dropBytes_byteLen_take]
      rw [charRFind_take_eq_none b.text n hn (oF - 1)
        (fun p hp => hminF p (by omega))]
      rw [charRFind_drop_eq b.text n hn (oF - 1) oL hoL (by omega) hmaxL]
      simp only [Option.some.injEq]
      rw [← byteLen_take_add]
      congr 2
      omega
    unfold find_prev
    rw [if_neg hn, hfm]

theorem occList_get_occ (t n : Text) (j : Nat) (hj : j < (occList t n).length) :
    n.isPrefixOf (t.drop ((occList t n).get ⟨j, hj⟩)) = true ∧
      (occList t n).get ⟨j, hj⟩ ≤ t.length := by
  have hmem : (occList t n).get ⟨j, hj⟩ ∈ occList t n := List.get_mem _ _ _
  exact ⟨(mem_occList.mp hmem).2, (mem_occList.mp hmem).1⟩

theorem occList_get_lt (t n : Text) {j k : Nat} (hj : j < (occList t n).length)
    (hk : k < (occList t n).length) (hjk : j < k) :
    (occList t n).get ⟨j, hj⟩ < (occList t n).get ⟨k, hk⟩ :=
  (occList_sorted t n).get_strictMono (Fin.mk_lt_mk.mpr hjk)

/-- No occurrence of the needle lies strictly between two consecutive
entries of the occurrence list. -/
theorem occList_not_between (t n : Text) (hn : n ≠ []) (j : Nat)
    (hj : j < (occList t n).length) (hj1 : j + 1 < (occList t n).length) :
    ∀ p, (occList t n).get ⟨j, hj⟩ < p → p < (occList t n).get ⟨j + 1, hj1⟩ →
      ¬ n.isPrefixOf (t.drop p) = true := by
  intro p hp1 hp2 hocc
  have hple : p ≤ t.length := by
    have := occ_le_length hn hocc
    omega
  obtain ⟨m, hm⟩ := List.mem_iff_get.mp (mem_occList.mpr ⟨hple, hocc⟩)
  have hmono := (occList_sorted t n).get_strictMono.monotone
  rcases Nat.lt_or_ge m.1 (j + 1) with hc | hc
  · have hle := hmono (show m ≤ (⟨j, hj⟩ : Fin (occList t n).length) from
      Fin.le_def.mpr (show m.1 ≤ j by omega))
    rw [hm] at hle
    omega
  · have hle := hmono (show (⟨j + 1, hj1⟩ : Fin (occList t n).length) ≤ m from
      Fin.le_def.mpr (show j + 1 ≤ m.1 from hc))
    rw [hm] at hle
    omega

/-- No occurrence of the needle lies before the first entry of the
occurrence list. -/
theorem occList_min (t n : Text) (hn : n ≠ []) (h0 : 0 < (occList t n).length) :
    ∀ p, p < (occList t n).get ⟨0, h0⟩ → ¬ n.isPrefixOf (t.drop p) = true := by
  intro p hp hocc
  have hple : p ≤ t.length := by
    have := occ_le_length hn hocc
    omega
  obtain ⟨m, hm⟩ := List.mem_iff_get.mp (mem_occList.mpr ⟨hple, hocc⟩)
  have hle := (occList_sorted t n).get_strictMono.monotone
    (show (⟨0, h0⟩ : Fin (occList t n).length) ≤ m from
      Fin.le_def.mpr (show 0 ≤ m.1 from Nat.zero_le _))
  rw [hm] at hle
  omega

/-- No occurrence of the needle lies after the last entry of the
occurrence list. -/
theorem occList_max (t n : Text) (hn : n ≠ []) (j : Nat)
    (hj : j < (occList t n).length) (hlast : j + 1 = (occList t n).length) :
    ∀ p, (occList t n).get ⟨j, hj⟩ < p → ¬ n.isPrefixOf (t.drop p) = true := by
  intro p hp hocc
  have hple : p ≤ t.length := by
    have := occ_le_length hn hocc
    omega
  obtain ⟨m, hm⟩ := List.mem_iff_get.mp (mem_occList.mpr ⟨hple, hocc⟩)
  have hle := (occList_sorted t n).get_strictMono.monotone
    (show m ≤ (⟨j, hj⟩ : Fin (occList t n).length) from
      Fin.le_def.mpr (show m.1 ≤ j by have := m.2; omega))
  rw [hm] at hle
  omega

theorem occList_gap {t n : Text} (hgap : (occList t n).Chain' (fun p q => p + n.length < q))
    (j : Nat) (hj : j < (occList t n).length) (hj1 : j + 1 < (occList t n).length) :
    (occList t n).get ⟨j, hj⟩ + n.length < (occList t n).get ⟨j + 1, hj1⟩ := by
  have h := List.chain'_iff_get.mp hgap j (by omega)
  exact h

/-- C8: counterexample. In `"aaaa"` the needle `"aa"` occurs (more than
once) at offsets 0, 1 and 2. With the cursor on the match at offset 0,
`find_next` succeeds and moves the cursor to the match at offset 1, but
`find_prev` from that cursor lands on the match at offset 2 — neither the
match `find_next` reported (offset 1) nor the one the cursor started on
(offset 0). The spec's wraparound symmetry fails for overlapping or
adjacent occurrences. -/
theorem C8_counterexample :
    occList ("aaaa".data) ("aa".data) = [0, 1, 2] ∧
    (find_next ({ EditorBuffer.new ("aaaa".data) with cursor := 0 }) ("aa".data)).1 = true ∧
    (find_next ({ EditorBuffer.new ("aaaa".data) with cursor := 0 }) ("aa".data)).2.cursor = 1 ∧
    (find_prev ((find_next ({ EditorBuffer.new ("aaaa".data) with cursor := 0 })
        ("aa".data)).2) ("aa".data)).2.cursor = 2 ∧
    (2 : Nat) ≠ 0 ∧ (2 : Nat) ≠ 1 := by
  have hnext : find_next ({ EditorBuffer.new ("aaaa".data) with cursor := 0 }) ("aa".data) =
      (true, { EditorBuffer.new ("aaaa".data) with cursor := 1 }) := by
    have h := find_next_to_next ({ EditorBuffer.new ("aaaa".data) with cursor := 0 })
      ("aa".data) (by decide) 0 1 (by decide) (by decide) (by decide)
      (fun p hp1 hp2 => absurd hp1 (by omega)) (by decide)
    rw [show byteLen ((({ EditorBuffer.new ("aaaa".data) with cursor := 0 }) :
      EditorBuffer).text.take 1) = 1 from by decide] at h
    exact h
  have hprev : find_prev ({ EditorBuffer.new ("aaaa".data) with cursor := 1 }) ("aa".data) =
      (true, { EditorBuffer.new ("aaaa".data) with cursor := 2 }) := by
    have hpb : prev_char_boundary ("aaaa".data) 1 = 0 := by
      have h := prev_char_boundary_at ("aaaa".data) 0 (by decide)
      rw [show byteLen (("aaaa".data).take (0 + 1)) = 1 from by decide,
        show byteLen (("aaaa".data).take 0) = 0 from by decide] at h
      exact h
    have hps : findPrevStart ({ EditorBuffer.new ("aaaa".data) with cursor := 1 }) = 0 := by
      unfold findPrevStart
      rw [if_neg (by decide)]
      exact hpb
    unfold find_prev
    rw [if_neg (show ¬("aa".data = []) from by decide), hps]
    rw [show rfindMatchFrom (({ EditorBuffer.new ("aaaa".data) with cursor := 1 }) :
      EditorBuffer).text 0 ("aa".data) = some 2 from by decide]
  have hcomb : find_prev ((find_next ({ EditorBuffer.new ("aaaa".data) with cursor := 0 })
      ("aa".data)).2) ("aa".data) =
      (true, { EditorBuffer.new ("aaaa".data) with cursor := 2 }) := by
    rw [hnext]
    exact hprev
  refine ⟨by decide, ?_, ?_, ?_, by decide, by decide⟩
  · rw [hnext]
  · rw [hnext]
  · rw [hcomb]

/-- C8 (amended): wraparound symmetry of `find_next`/`find_prev` holds
when consecutive occurrences of the needle are separated by at least one
character (no overlapping and no adjacent matches). If the cursor sits on
any occurrence of the needle and the needle occurs at least twice, then
`find_next` succeeds, and `find_prev` from the resulting cursor succeeds
and returns the cursor to the occurrence it started on. -/
theorem C8_find_symmetry_amended (b : EditorBuffer) (n : Text) (hn : n ≠ [])
    (i : Nat) (hi : i < (occList b.text n).length)
    (hlen2 : 2 ≤ (occList b.text n).length)
    (hgap : (occList b.text n).Chain' (fun p q => p + n.length < q))
    (hcur : b.cursor = byteLen (b.text.take ((occList b.text n).get ⟨i, hi⟩))) :
    (find_next b n).1 = true ∧ (find_prev (find_next b n).2 n).1 = true ∧
      (find_prev (find_next b n).2 n).2.cursor = b.cursor := by
  have hocc := occList_get_occ b.text n i hi
  by_cases hlast : i + 1 < (occList b.text n).length
  · have hocc' := occList_get_occ b.text n (i + 1) hlast
    have hbetween := occList_not_between b.text n hn i hi hlast
    have hlt : (occList b.text n).get ⟨i, hi⟩ < (occList b.text n).get ⟨i + 1, hlast⟩ :=
      occList_get_lt b.text n hi hlast (by omega)
    have hg := occList_gap hgap i hi hlast
    have hnext := find_next_to_next b n hn _ _ hocc.1 hocc'.1 hlt hbetween hcur
    have hprev := find_prev_to_prev
      ({ b with cursor := byteLen (b.text.take ((occList b.text n).get ⟨i + 1, hlast⟩)) })
      n hn ((occList b.text n).get ⟨i, hi⟩) ((occList b.text n).get ⟨i + 1, hlast⟩)
      hocc.1 hg hocc'.2 hbetween rfl
    have hcomb : find_prev (find_next b n).2 n =
        (true, { b with cursor := byteLen (b.text.take ((occList b.text n).get ⟨i, hi⟩)) }) := by
      rw [hnext]
      exact hprev
    refine ⟨?_, ?_, ?_⟩
    · rw [hnext]
    · rw [hcomb]
    · rw [hcomb, hcur]
  · have hlast' : i + 1 = (occList b.text n).length := by omega
    have h0 : 0 < (occList b.text n).length := by omega
    have h1 : 1 < (occList b.text n).length := by omega
    have hocc0 := occList_get_occ b.text n 0 h0
    have hmax := occList_max b.text n hn i hi hlast'
    have hmin := occList_min b.text n hn h0
    have hfit : (occList b.text n).get ⟨0, h0⟩ + n.length ≤
        (occList b.text n).get ⟨i, hi⟩ + 1 := by
      have hg0 : (occList b.text n).get ⟨0, h0⟩ + n.length <
          (occList b.text n).get ⟨1, h1⟩ := occList_gap hgap 0 h0 h1
      have hle : (occList b.text n).get ⟨1, h1⟩ ≤ (occList b.text n).get ⟨i, hi⟩ :=
        (occList_sorted b.text n).get_strictMono.monotone
          (Fin.le_def.mpr (show (1 : Nat) ≤ i by omega))
      omega
    have hnext := find_next_wraps b n hn _ _ hocc.1 hocc0.1 hmax hmin hfit hcur
    have hFle : (occList b.text n).get ⟨0, h0⟩ ≤ (occList b.text n).get ⟨i, hi⟩ :=
      (occList_sorted b.text n).get_strictMono.monotone
        (Fin.le_def.mpr (show 0 ≤ i from Nat.zero_le _))
    have hprev := find_prev_wraps
      ({ b with cursor := byteLen (b.text.take ((occList b.text n).get ⟨0, h0⟩)) })
      n hn ((occList b.text n).get ⟨0, h0⟩) ((occList b.text n).get ⟨i, hi⟩)
      hocc0.1 hocc.1 hmin hmax hFle rfl
    have hcomb : find_prev (find_next b n).2 n =
        (true, { b with cursor := byteLen (b.text.take ((occList b.text n).get ⟨i, hi⟩)) }) := by
      rw [hnext]
      exact hprev
    refine ⟨?_, ?_, ?_⟩
    · rw [hnext]
    · rw [hcomb]
    · rw [hcomb, hcur]

/-- Witness for the amended C8 theorem: in `"ab ab"` the needle `"ab"`
occurs at offsets 0 and 3 (separated by a space); from the occurrence at
offset 0, `find_next` then `find_prev` succeed and return the cursor to
offset 0. -/
theorem C8_amended_witness :
    (find_next ({ EditorBuffer.new ("ab ab".data) with cursor := 0 }) ("ab".data)).1 = true ∧
    (find_prev (find_next ({ EditorBuffer.new ("ab ab".data) with cursor := 0 })
        ("ab".data)).2 ("ab".data)).1 = true ∧
    (find_prev (find_next ({ EditorBuffer.new ("ab ab".data) with cursor := 0 })
        ("ab".data)).2 ("ab".data)).2.cursor =
      ({ EditorBuffer.new ("ab ab".data) with cursor := 0 } : EditorBuffer).cursor := by
  have hocc : occList (({ EditorBuffer.new ("ab ab".data) with cursor := 0 } :
      EditorBuffer).text) ("ab".data) = [0, 3] := by decide
  have hg : (occList (({ EditorBuffer.new ("ab ab".data) with cursor := 0 } :
      EditorBuffer).text) ("ab".data)).Chain'
      (fun p q => p + ("ab".data).length < q) := by
    rw [hocc]
    exact List.chain'_cons.mpr ⟨by decide, List.chain'_singleton _⟩
  exact C8_find_symmetry_amended ({ EditorBuffer.new ("ab ab".data) with cursor := 0 })
    ("ab".data) (by decide) 0 (by decide) (by decide) hg (by decide)

end Mdv
